import Mathlib

/-!
Verification development for the connection-lifecycle core of the
vscode-ibmi extension (`src/Instance.ts`, `src/instantiate.ts`).

The event-subscription registry of `Instance` is embedded as insertion-ordered
association lists, matching the semantics of the JavaScript `Map` used by the
source: `set` on an existing key replaces the value in place (the key keeps its
position), `set` on a fresh key appends, `delete` removes, and iteration is in
insertion order and is live (entries appended during an iteration are visited
by it).  Handlers are identified by numeric ids; their dynamic behaviour
(whether they throw, which `subscribe` calls they perform while running) is
supplied as an environment.  `processEvent` returns the updated registry, the
ordered list of performed invocations `(identity, handler id)` — the sequential
execution order, since each handler is awaited before the next starts — and the
list of identities whose handler raised (the error log).
-/

namespace Instance

/-- `IBMiEventSubscription` from `src/Instance.ts:12-15`: the stored handler
(`func`, as a numeric id) and the `transient` flag (`undefined` coerces to
`false`). -/
structure Subscription where
  func : Nat
  transient : Bool
deriving DecidableEq

/-- `SubscriptionMap` (`src/Instance.ts:17`): a JavaScript `Map` from identity
strings to subscriptions, as an insertion-ordered association list. -/
abbrev SubscriptionMap := List (String × Subscription)

/-- JavaScript `Map.set`: replace in place when the key is present (the entry
keeps its position), append otherwise. -/
def mapSet (m : SubscriptionMap) (k : String) (v : Subscription) : SubscriptionMap :=
  if m.any (fun p => p.1 == k) then
    m.map (fun p => if p.1 == k then (k, v) else p)
  else
    m ++ [(k, v)]

/-- JavaScript `Map.delete`. -/
def mapDelete (m : SubscriptionMap) (k : String) : SubscriptionMap :=
  m.filter (fun p => !(p.1 == k))

/-- `this.subscribers : Map<IBMiEvent, SubscriptionMap>` (`src/Instance.ts:31`),
with event kinds as strings. -/
abbrev Registry := List (String × SubscriptionMap)

/-- `getSubscribers` (`src/Instance.ts:216-222`), read part: the existing map
for the event, or an empty one. -/
def getSubscribers (reg : Registry) (event : String) : SubscriptionMap :=
  match reg.find? (fun p => p.1 == event) with
  | some p => p.2
  | none => []

/-- The write-back of `getSubscribers`: the source mutates the per-event map in
place (inserting an empty one on first use); functionally, store `m` as the
event's map. -/
def setSubscribers (reg : Registry) (event : String) (m : SubscriptionMap) : Registry :=
  if reg.any (fun p => p.1 == event) then
    reg.map (fun p => if p.1 == event then (event, m) else p)
  else
    reg ++ [(event, m)]

/-- The identity string built by `subscribe` (`src/Instance.ts:213`):
`` `${context.extension.id} - ${name}` ``. -/
def subKey (ctxId name : String) : String :=
  ctxId ++ " - " ++ name

/-- `subscribe` (`src/Instance.ts:212-214`). -/
def subscribe (reg : Registry) (ctxId event name : String) (func : Nat) (transient : Bool) :
    Registry :=
  setSubscribers reg event
    (mapSet (getSubscribers reg event) (subKey ctxId name) ⟨func, transient⟩)

/-- The identity string built by `onEvent` (`src/Instance.ts:228`):
`` `deprecated - ${func.name || "unknown"}_${this.deprecationCount++}` ``. -/
def deprecatedKey (funcName : String) (count : Nat) : String :=
  "deprecated - " ++ (if funcName = "" then "unknown" else funcName) ++ "_" ++ Nat.repr count

/-- `onEvent` (`src/Instance.ts:227-230`): registers under the deprecated key
and increments `deprecationCount` (the stored entry has no `transient` flag,
i.e. it is non-transient). -/
def onEvent (reg : Registry) (count : Nat) (event : String) (funcId : Nat)
    (funcName : String) : Registry × Nat :=
  (setSubscribers reg event
    (mapSet (getSubscribers reg event) (deprecatedKey funcName count) ⟨funcId, false⟩),
   count + 1)

/-- Dynamic behaviour of a handler: whether its invocation raises, and the
`subscribe` calls (context id, name, handler id, transient flag) it performs on
the same event kind while running. -/
structure HandlerBehavior where
  throws : Bool
  subs : List (String × String × Nat × Bool)

/-- The effect on the event's subscription map of the `subscribe` calls a
handler performs while it runs (`subscribe` mutates the same `Map` object the
firing loop iterates). -/
def applyHandlerSubs (m : SubscriptionMap) (calls : List (String × String × Nat × Bool)) :
    SubscriptionMap :=
  calls.foldl (fun acc c => mapSet acc (subKey c.1 c.2.1) ⟨c.2.2.1, c.2.2.2⟩) m

/-- The `for (const [identity, callable] of eventSubscribers.entries())` loop of
`processEvent` (`src/Instance.ts:239-253`).  JavaScript `Map` iteration is live
and in insertion order: the next entry visited is the first entry of the
current map whose key has not been yielded yet.  Each step awaits the handler
(applying its `subscribe` effects to the same map), records an error-log entry
when it throws, and in the `finally` block deletes the entry when the captured
subscription was transient.  Returns the final map, the invocation list
`(identity, handler id)` in execution order, and the error-log identities. -/
def fireLoop (H : Nat → HandlerBehavior) (fuel : Nat) (m : SubscriptionMap)
    (visited : List String) : SubscriptionMap × List (String × Nat) × List String :=
  match fuel with
  | 0 => (m, [], [])
  | fuel + 1 =>
    match m.find? (fun p => !(visited.contains p.1)) with
    | none => (m, [], [])
    | some kv =>
      let m1 := applyHandlerSubs m (H kv.2.func).subs
      let errs := if (H kv.2.func).throws then [kv.1] else []
      let m2 := if kv.2.transient then mapDelete m1 kv.1 else m1
      let r := fireLoop H fuel m2 (visited ++ [kv.1])
      (r.1, (kv.1, kv.2.func) :: r.2.1, errs ++ r.2.2)

/-- `processEvent` (`src/Instance.ts:236-255`).  `fire` (`src/Instance.ts:232`)
forwards to it through the `vscode.EventEmitter` wired in the constructor
(`src/Instance.ts:42`); each `fire` results in one `processEvent` run. -/
def processEvent (H : Nat → HandlerBehavior) (event : String) (reg : Registry)
    (fuel : Nat) : Registry × List (String × Nat) × List String :=
  let r := fireLoop H fuel (getSubscribers reg event) []
  (setSubscribers reg event r.1, r.2.1, r.2.2)

/-- A handler environment that performs no `subscribe` calls while running. -/
def Pure (H : Nat → HandlerBehavior) : Prop :=
  ∀ i, (H i).subs = []

/-- Keys of a subscription map. -/
def keysOf (m : SubscriptionMap) : List String :=
  m.map Prod.fst

/-- The normalized function name used in the deprecated key:
`func.name || "unknown"`. -/
def normName (funcName : String) : String :=
  if funcName = "" then "unknown" else funcName

/-- The key-shape invariant a registry satisfies relative to the deprecation
counter: every present key either does not have the deprecated shape at all
(in the source, `subscribe` keys start with a VS Code extension id), or is a
deprecated key whose counter is below the current `deprecationCount`. -/
def DepInv (m : SubscriptionMap) (count : Nat) : Prop :=
  ∀ k ∈ keysOf m, (∀ t, k ≠ "deprecated - " ++ t) ∨ ∃ fn c, k = deprecatedKey fn c ∧ c < count

/-- Folding a list of `subscribe` calls (context id, name, handler id,
transient) into the registry, in order. -/
def subscribeAll (reg : Registry) (event : String)
    (calls : List (String × String × Nat × Bool)) : Registry :=
  calls.foldl (fun r c => subscribe r c.1 event c.2.1 c.2.2.1 c.2.2.2) reg

end Instance

/-!
Connection-lifecycle embedding.  Connection handles (`IBMi` objects) are
identified by numeric ids; an environment `names : Nat → String` gives each
handle's `currentConnectionName`.  The orchestrator state carries the `current`
handle slot (`this.connection`), the per-handle disposed/callback flags, the
`ConnectionStorage` connection-name pointer, and the `GlobalStorage`
last-connection record.  Every externally visible step appends an `Action` to a
trace, so happens-before claims become statements about trace order.

`IBMi` itself (`src/api/IBMi.ts`) is not part of the given sources; its
`dispose` is modelled from the spec (see `Lifecycle.dispose`).  Everything else
below is translated from `src/Instance.ts`.
-/

namespace Lifecycle

/-- `ConnectionResult` from `src/api/IBMi.ts` as consumed by `Instance.connect`:
only the `success` flag is inspected (`src/Instance.ts:111,131`). -/
structure ConnectionResult where
  success : Bool
deriving DecidableEq

/-- Per-handle state: whether the handle has been disposed, and whether
`setDisconnectedCallback` has installed the orchestrator's callback on it. -/
structure HandleState where
  disposed : Bool
  hasCallback : Bool
deriving DecidableEq

/-- The orchestrator state of `Instance` (`src/Instance.ts:27-31`) plus the
storage collaborators it writes through. -/
structure OState where
  current : Option Nat
  handles : Nat → HandleState
  storageName : String
  lastConnection : Option String

/-- Externally visible steps, in execution order. -/
inductive Action where
  | disposeH : Nat → Action
  | install : Nat → Action
  | setName : String → Action
  | setLast : String → Action
  | fireEv : String → Action
  | refreshCmd : String → Action
deriving DecidableEq

mutual

/-- Modelled from the spec: `IBMi.dispose` is not under `src/`.  Per §4.1
`dispose()` is idempotent (disposing an already-disposed handle is a no-op) and
per §4.2 tearing down a live handle results in the `disconnected` notification,
which in `src/Instance.ts` only the callback registered by
`setDisconnectedCallback` (`src/Instance.ts:155-158`) can produce: disposing a
live handle marks it disposed and invokes that callback once, when installed.
`fuel` bounds the reentrant `dispose` → callback → `setConnection` chain, which
stops at depth two because the handle is already marked disposed. -/
def dispose (names : Nat → String) (fuel : Nat) (s : OState) (h : Nat) :
    OState × List Action :=
  match fuel with
  | 0 => (s, [])
  | fuel + 1 =>
    if (s.handles h).disposed then (s, [])
    else
      let s1 : OState := { s with
        handles := fun g => if g = h then ⟨true, (s.handles g).hasCallback⟩ else s.handles g }
      if (s.handles h).hasCallback then
        let r := disconnectedCallback names fuel s1
        (r.1, Action.disposeH h :: r.2)
      else
        (s1, [Action.disposeH h])

/-- The callback passed to `setDisconnectedCallback` (`src/Instance.ts:155-158`):
`this.setConnection(); this.fire("disconnected")`. -/
def disconnectedCallback (names : Nat → String) (fuel : Nat) (s : OState) :
    OState × List Action :=
  match fuel with
  | 0 => (s, [])
  | fuel + 1 =>
    let r := setConnection names fuel s none
    (r.1, r.2 ++ [Action.fireEv "disconnected"])

/-- `setConnection` (`src/Instance.ts:149-171`): dispose the previous current
handle if any; then either install the new handle (register the disconnected
callback, set it current, write the storage connection name, persist the last
connection, fire `connected`) or clear the slot and the storage pointer. -/
def setConnection (names : Nat → String) (fuel : Nat) (s : OState) (conn : Option Nat) :
    OState × List Action :=
  match fuel with
  | 0 => (s, [])
  | fuel + 1 =>
    let r1 : OState × List Action :=
      match s.current with
      | some old => dispose names fuel s old
      | none => (s, [])
    match conn with
    | some c =>
      let s2 : OState := { r1.1 with
        handles := fun g => if g = c then ⟨(r1.1.handles g).disposed, true⟩ else r1.1.handles g,
        current := some c,
        storageName := names c,
        lastConnection := some (names c) }
      (s2, r1.2 ++ [Action.install c, Action.setName (names c),
                    Action.setLast (names c), Action.fireEv "connected"])
    | none =>
      ({ r1.1 with current := none, storageName := "" }, r1.2 ++ [Action.setName ""])

end

/-- `disconnect` (`src/Instance.ts:139-147`): `setConnection()` then the three
view-refresh commands. -/
def disconnect (names : Nat → String) (fuel : Nat) (s : OState) : OState × List Action :=
  let r := setConnection names fuel s none
  (r.1, r.2 ++ [Action.refreshCmd "refreshObjectBrowser",
                Action.refreshCmd "refreshLibraryListView",
                Action.refreshCmd "refreshIFSBrowser"])

/-- Outcome of one `connection.connect(...)` call inside the retry loop: either
it returned a `ConnectionResult`, or it threw (caught at
`src/Instance.ts:105-108`, which records the message and sets
`result = { success: false }`). -/
inductive AttemptOutcome where
  | ok : ConnectionResult → AttemptOutcome
  | threw : String → AttemptOutcome
deriving DecidableEq

/-- The `result` observed after one `connection.connect(...)` call: the
returned `ConnectionResult`, or — through the `catch` at
`src/Instance.ts:105-108` — `{ success: false }` when the call threw, so a
fault never propagates to the caller. -/
def outcomeResult (o : AttemptOutcome) : ConnectionResult :=
  match o with
  | .ok r => r
  | .threw _ => ⟨false⟩

/-- The `while (true)` retry loop of `connect` (`src/Instance.ts:82-129`).
`attempts` is the oracle for the successive `connection.connect` outcomes,
`answers` for the user's replies to the `Could not reconnect` prompt (consumed
only when the prompt is shown, i.e. when `options.reconnecting` holds on a
failed attempt).  On success: `setConnection(connection)` and break; on
failure: `this.disconnect()`, then retry only on `reconnecting` with a
confirming answer. -/
def connectLoop (names : Nat → String) (fuel : Nat) (s : OState) (c : Nat)
    (reconnecting : Bool) (attempts : List AttemptOutcome) (answers : List Bool) :
    OState × List Action × ConnectionResult :=
  match attempts with
  | [] => (s, [], ⟨false⟩)
  | o :: rest =>
    let result : ConnectionResult := outcomeResult o
    if result.success then
      let r := setConnection names fuel s (some c)
      (r.1, r.2, result)
    else
      let d := disconnect names fuel s
      if reconnecting && answers.headD false then
        let r := connectLoop names fuel d.1 c true rest answers.tail
        (r.1, d.2 ++ r.2.1, r.2.2)
      else
        (d.1, d.2, result)

/-- `connect` (`src/Instance.ts:45-137`): the fresh handle `c` models
`new IBMi()`; after the loop, `if (result.success === false) connection.dispose()`
runs before the result is returned to the caller. -/
def connect (names : Nat → String) (fuel : Nat) (s : OState) (c : Nat)
    (reconnecting : Bool) (attempts : List AttemptOutcome) (answers : List Bool) :
    OState × List Action × ConnectionResult :=
  let r := connectLoop names fuel s c reconnecting attempts answers
  if r.2.2.success = false then
    let d := dispose names fuel r.1 c
    (d.1, r.2.1 ++ d.2, r.2.2)
  else
    r

/-- The state invariant of a well-formed orchestrator: a current handle is live
and carries the disconnected callback (it was installed by `setConnection`). -/
def WF (s : OState) : Prop :=
  ∀ h, s.current = some h → (s.handles h).disposed = false ∧ (s.handles h).hasCallback = true

/-- A handle fresh out of `new IBMi()`: not disposed, no callback installed,
and not sitting in the current slot. -/
def FreshHandle (s : OState) (c : Nat) : Prop :=
  (s.handles c).disposed = false ∧ (s.handles c).hasCallback = false ∧ s.current ≠ some c

end Lifecycle

/-!
The old-API `disconnect` of `src/instantiate.ts:80-113`: scan the open text
documents; a dirty connection-backed document (scheme `member` or `streamfile`)
blocks the disconnect with an error notice; clean ones are shown and closed.
Only when nothing blocked does it clear `instance.connection` and call
`connection.end()`.
-/

namespace Instantiate

/-- The fields of `vscode.TextDocument` inspected by `disconnect`. -/
structure TextDoc where
  scheme : String
  isClosed : Bool
  isDirty : Bool
deriving DecidableEq

/-- UI-visible steps of the old-API `disconnect`. -/
inductive UAction where
  | showErrorMessage : String → UAction
  | showTextDocument : UAction
  | closeActiveEditor : UAction
  | endConn : Nat → UAction
deriving DecidableEq

/-- The document loop of `disconnect` (`src/instantiate.ts:83-101`), carrying
the `doDisconnect` flag. -/
def docsPass (docs : List TextDoc) (doDisconnect : Bool) : Bool × List UAction :=
  match docs with
  | [] => (doDisconnect, [])
  | d :: rest =>
    if !d.isClosed && (d.scheme == "member" || d.scheme == "streamfile") then
      if d.isDirty then
        if doDisconnect then
          let r := docsPass rest false
          (r.1, UAction.showErrorMessage "Cannot disconnect while files have not been saved." ::
                UAction.showTextDocument :: r.2)
        else
          docsPass rest doDisconnect
      else
        let r := docsPass rest doDisconnect
        (r.1, UAction.showTextDocument :: UAction.closeActiveEditor :: r.2)
    else
      docsPass rest doDisconnect

/-- `disconnect` (`src/instantiate.ts:80-113`): returns the `doDisconnect`
flag, the resulting `instance.connection` slot, and the UI trace.  `end()` on
the connection is only reached when nothing blocked. -/
def disconnect (docs : List TextDoc) (conn : Option Nat) :
    Bool × Option Nat × List UAction :=
  let p := docsPass docs true
  if p.1 then
    match conn with
    | some h => (true, none, p.2 ++ [UAction.endConn h])
    | none => (true, none, p.2)
  else
    (false, conn, p.2)

/-- A document that blocks the disconnect: open, connection-backed, unsaved. -/
def Blocking (d : TextDoc) : Prop :=
  d.isClosed = false ∧ (d.scheme = "member" ∨ d.scheme = "streamfile") ∧ d.isDirty = true

end Instantiate

/-!
Decimal-representation facts.  The deprecated keys built by `onEvent` embed the
`deprecationCount` through `Nat.repr`; to reason about key collisions we show
`Nat.repr` is injective and produces digit characters only, via the fuel-free
recursion `decRepr`.
-/

namespace Decimal

/-- Fuel-free decimal rendering: the digit characters of `n`, most significant
first. -/
def decRepr (n : Nat) : List Char :=
  if h : n < 10 then [Nat.digitChar n]
  else decRepr (n / 10) ++ [Nat.digitChar (n % 10)]
decreasing_by exact Nat.div_lt_self (by omega) (by omega)

/-- Value of a digit character. -/
def digitVal (c : Char) : Nat :=
  c.toNat - 48

/-- Reading a digit string back as a number. -/
def decodeDec (l : List Char) : Nat :=
  l.foldl (fun a c => a * 10 + digitVal c) 0

theorem toDigitsCore_eq_decRepr (fuel : Nat) :
    ∀ n acc, n < fuel → Nat.toDigitsCore 10 fuel n acc = decRepr n ++ acc := by
  induction fuel with
  | zero => intro n acc h; omega
  | succ fuel ih =>
    intro n acc h
    rw [Nat.toDigitsCore]
    by_cases h0 : n / 10 = 0
    · have hn : n < 10 := by omega
      have hm : n % 10 = n := Nat.mod_eq_of_lt hn
      simp only [h0, if_pos rfl, hm]
      rw [decRepr, dif_pos hn]
      rfl
    · have hge : 10 ≤ n := by
        by_contra hc
        exact h0 (Nat.div_eq_of_lt (by omega))
      have hlt1 : n / 10 < n := Nat.div_lt_self (by omega) (by omega)
      rw [if_neg h0, ih (n / 10) _ (by omega)]
      conv_rhs => rw [decRepr]
      rw [dif_neg (by omega : ¬ n < 10)]
      simp

theorem repr_data_eq_decRepr (n : Nat) : (Nat.repr n).data = decRepr n := by
  show (Nat.toDigits 10 n).asString.data = decRepr n
  rw [Nat.toDigits, toDigitsCore_eq_decRepr (n + 1) n [] (by omega)]
  simp [List.asString]

theorem digitVal_digitChar : ∀ d, d < 10 → digitVal (Nat.digitChar d) = d := by decide

theorem digitChar_isDigit : ∀ d, d < 10 → (Nat.digitChar d).isDigit = true := by decide

theorem decodeDec_append_digit (l : List Char) (c : Char) :
    decodeDec (l ++ [c]) = decodeDec l * 10 + digitVal c := by
  simp [decodeDec, List.foldl_append]

theorem decodeDec_decRepr (n : Nat) : decodeDec (decRepr n) = n := by
  induction n using Nat.strong_induction_on with
  | _ n ih =>
    rw [decRepr]
    by_cases h : n < 10
    · rw [dif_pos h]
      simp [decodeDec, digitVal_digitChar n h]
    · rw [dif_neg h]
      rw [decodeDec_append_digit, ih (n / 10) (Nat.div_lt_self (by omega) (by omega)),
        digitVal_digitChar (n % 10) (by omega)]
      omega

theorem decRepr_inj {a b : Nat} (h : decRepr a = decRepr b) : a = b := by
  have := congrArg decodeDec h
  rwa [decodeDec_decRepr, decodeDec_decRepr] at this

theorem natRepr_inj {a b : Nat} (h : Nat.repr a = Nat.repr b) : a = b := by
  apply decRepr_inj
  rw [← repr_data_eq_decRepr, ← repr_data_eq_decRepr, h]

theorem decRepr_all_digits (n : Nat) : ∀ ch ∈ decRepr n, ch.isDigit = true := by
  induction n using Nat.strong_induction_on with
  | _ n ih =>
    rw [decRepr]
    by_cases h : n < 10
    · rw [dif_pos h]
      intro ch hch
      rw [List.mem_singleton] at hch
      subst hch
      exact digitChar_isDigit n h
    · rw [dif_neg h]
      intro ch hch
      rcases List.mem_append.mp hch with hl | hr
      · exact ih (n / 10) (Nat.div_lt_self (by omega) (by omega)) ch hl
      · rw [List.mem_singleton] at hr
        subst hr
        exact digitChar_isDigit (n % 10) (by omega)

theorem underscore_not_mem_decRepr (n : Nat) : ('_' : Char) ∉ decRepr n := by
  intro hmem
  have := decRepr_all_digits n _ hmem
  simp [Char.isDigit] at this

/-- First-marker splitting: if two decompositions around a character absent
from both prefixes give the same list, the parts agree. -/
theorem split_at_marker {xs1 ys1 xs2 ys2 : List Char}
    (h1 : ('_' : Char) ∉ xs1) (h2 : ('_' : Char) ∉ xs2)
    (he : xs1 ++ '_' :: ys1 = xs2 ++ '_' :: ys2) : xs1 = xs2 ∧ ys1 = ys2 := by
  induction xs1 generalizing xs2 with
  | nil =>
    cases xs2 with
    | nil => simpa using he
    | cons b bs =>
      simp only [List.nil_append, List.cons_append, List.cons.injEq] at he
      exact absurd (he.1 ▸ List.mem_cons_self b bs) (he.1 ▸ h2)
  | cons a as ih =>
    cases xs2 with
    | nil =>
      simp only [List.nil_append, List.cons_append, List.cons.injEq] at he
      exact absurd (he.1 ▸ List.mem_cons_self a as) (he.1 ▸ h1)
    | cons b bs =>
      simp only [List.cons_append, List.cons.injEq] at he
      have hr := ih (fun hm => h1 (List.mem_cons_of_mem a hm))
        (fun hm => h2 (List.mem_cons_of_mem b hm)) he.2
      exact ⟨by rw [he.1, hr.1], hr.2⟩

end Decimal

namespace Instance

theorem find?_append_of_forall_false {α : Type} (p : α → Bool) (l1 l2 : List α)
    (h : ∀ x ∈ l1, p x = false) : List.find? p (l1 ++ l2) = List.find? p l2 := by
  induction l1 with
  | nil => rfl
  | cons a as ih =>
    rw [List.cons_append, List.find?_cons_of_neg _ (by simp [h a (List.mem_cons_self a as)])]
    exact ih (fun x hx => h x (List.mem_cons_of_mem a hx))

theorem filter_ne_of_not_mem (m : SubscriptionMap) (k : String)
    (h : k ∉ keysOf m) : m.filter (fun p => !(p.1 == k)) = m := by
  induction m with
  | nil => rfl
  | cons p rest ih =>
    have hp : p.1 ≠ k := by
      intro he
      exact h (by simp [keysOf, he])
    rw [List.filter_cons_of_pos (by simp [hp])]
    rw [ih (fun hm => h (by simp [keysOf] at hm ⊢; exact Or.inr hm))]

theorem mapSet_fresh (m : SubscriptionMap) (k : String) (v : Subscription)
    (h : k ∉ keysOf m) : mapSet m k v = m ++ [(k, v)] := by
  unfold mapSet
  rw [if_neg]
  intro hany
  rcases List.any_eq_true.mp hany with ⟨x, hx, hxk⟩
  have hxk' : x.1 = k := by simpa using hxk
  exact h (hxk' ▸ List.mem_map_of_mem Prod.fst hx)

theorem mapSet_mem (m : SubscriptionMap) (k : String) (v : Subscription)
    (h : k ∈ keysOf m) :
    mapSet m k v = m.map (fun p => if p.1 == k then (k, v) else p) := by
  unfold mapSet
  rw [if_pos]
  simp only [keysOf, List.mem_map] at h
  rcases h with ⟨x, hx, hxk⟩
  exact List.any_eq_true.mpr ⟨x, hx, by simpa using hxk⟩

theorem applyHandlerSubs_nil (m : SubscriptionMap) : applyHandlerSubs m [] = m := rfl

theorem keysOf_append (m1 m2 : SubscriptionMap) :
    keysOf (m1 ++ m2) = keysOf m1 ++ keysOf m2 := by
  simp [keysOf]

theorem keysOf_cons (p : String × Subscription) (m : SubscriptionMap) :
    keysOf (p :: m) = p.1 :: keysOf m := rfl

theorem contains_eq_true_of_mem {l : List String} {a : String} (h : a ∈ l) :
    l.contains a = true :=
  List.elem_eq_true_of_mem h

theorem contains_eq_false_of_not_mem {l : List String} {a : String} (h : a ∉ l) :
    l.contains a = false := by
  cases hc : l.contains a
  · rfl
  · exact absurd (List.mem_of_elem_eq_true hc) h

theorem fireLoop_zero (H : Nat → HandlerBehavior) (m : SubscriptionMap)
    (visited : List String) : fireLoop H 0 m visited = (m, [], []) := rfl

theorem fireLoop_none (H : Nat → HandlerBehavior) (fuel : Nat) (m : SubscriptionMap)
    (visited : List String)
    (h : m.find? (fun p => !(visited.contains p.1)) = none) :
    fireLoop H (fuel + 1) m visited = (m, [], []) := by
  rw [fireLoop, h]

theorem fireLoop_some (H : Nat → HandlerBehavior) (fuel : Nat) (m : SubscriptionMap)
    (visited : List String) (kv : String × Subscription)
    (h : m.find? (fun p => !(visited.contains p.1)) = some kv) :
    fireLoop H (fuel + 1) m visited =
      ((fireLoop H fuel
          (if kv.2.transient then mapDelete (applyHandlerSubs m (H kv.2.func).subs) kv.1
           else applyHandlerSubs m (H kv.2.func).subs) (visited ++ [kv.1])).1,
       (kv.1, kv.2.func) ::
         (fireLoop H fuel
           (if kv.2.transient then mapDelete (applyHandlerSubs m (H kv.2.func).subs) kv.1
            else applyHandlerSubs m (H kv.2.func).subs) (visited ++ [kv.1])).2.1,
       (if (H kv.2.func).throws then [kv.1] else []) ++
         (fireLoop H fuel
           (if kv.2.transient then mapDelete (applyHandlerSubs m (H kv.2.func).subs) kv.1
            else applyHandlerSubs m (H kv.2.func).subs) (visited ++ [kv.1])).2.2) := by
  rw [fireLoop, h]

/-- The value stored under a key is unique when the keys are nodup. -/
theorem mem_unique_of_nodup (m : SubscriptionMap) (k : String) (v v' : Subscription)
    (hnd : (keysOf m).Nodup) (h1 : (k, v) ∈ m) (h2 : (k, v') ∈ m) : v = v' := by
  induction m with
  | nil => cases h1
  | cons p rest ih =>
    simp only [keysOf, List.map_cons, List.nodup_cons] at hnd
    rcases List.mem_cons.mp h1 with he1 | hm1 <;> rcases List.mem_cons.mp h2 with he2 | hm2
    · rw [← he1] at he2
      exact congrArg Prod.snd he2.symm
    · exact absurd (by simpa [keysOf, ← he1] using List.mem_map_of_mem Prod.fst hm2) hnd.1
    · exact absurd (by simpa [keysOf, ← he2] using List.mem_map_of_mem Prod.fst hm1) hnd.1
    · exact ih hnd.2 hm1 hm2

/-- Main characterization of the firing loop for handler environments that do
not mutate the map while running: starting in a map whose prefix `mdone` has
been visited and whose suffix `mrest` has not, the loop invokes exactly the
`mrest` entries in order, deletes the transient ones, and logs the identities
of throwing handlers. -/
theorem fireLoop_pure (H : Nat → HandlerBehavior)
    (mrest : SubscriptionMap) :
    ∀ (mdone : SubscriptionMap) (visited : List String) (fuel : Nat),
      (∀ p ∈ mrest, (H p.2.func).subs = []) →
      mrest.length ≤ fuel →
      (keysOf (mdone ++ mrest)).Nodup →
      (∀ k ∈ keysOf mdone, k ∈ visited) →
      (∀ k ∈ keysOf mrest, k ∉ visited) →
      fireLoop H fuel (mdone ++ mrest) visited =
        (mdone ++ mrest.filter (fun p => !p.2.transient),
         mrest.map (fun p => (p.1, p.2.func)),
         keysOf (mrest.filter (fun p => (H p.2.func).throws))) := by
  induction mrest with
  | nil =>
    intro mdone visited fuel _ _ _ hdone _
    have hnone : mdone.find? (fun p => !(visited.contains p.1)) = none := by
      rw [List.find?_eq_none]
      intro x hx
      simp [hdone x.1 (List.mem_map_of_mem Prod.fst hx)]
    cases fuel with
    | zero => simp [fireLoop_zero, keysOf]
    | succ fuel => simp [fireLoop_none H fuel mdone visited hnone, keysOf]
  | cons kv rest ih =>
    intro mdone visited fuel hpure hfuel hnd hdone hrest
    cases fuel with
    | zero => exact absurd hfuel (by simp)
    | succ fuel =>
      have hk_not_vis : kv.1 ∉ visited := hrest kv.1 (by simp [keysOf])
      have hfind : (mdone ++ kv :: rest).find? (fun p => !(visited.contains p.1)) = some kv := by
        rw [find?_append_of_forall_false _ mdone _ (fun x hx => by
          simp [hdone x.1 (List.mem_map_of_mem Prod.fst hx)])]
        rw [List.find?_cons_of_pos _ (by
          show (!(visited.contains kv.1)) = true
          rw [contains_eq_false_of_not_mem hk_not_vis]
          rfl)]
      have hnd_keys : (keysOf mdone ++ kv.1 :: keysOf rest).Nodup := by
        rw [keysOf_append, keysOf_cons] at hnd
        exact hnd
      have hk_not_mdone : kv.1 ∉ keysOf mdone := by
        intro hm
        exact (List.disjoint_of_nodup_append hnd_keys) hm (by simp)
      have hk_not_rest : kv.1 ∉ keysOf rest := by
        have := (List.nodup_append.mp hnd_keys).2.1
        exact (List.nodup_cons.mp this).1
      have hvis' : ∀ k ∈ keysOf rest, k ∉ visited ++ [kv.1] := by
        intro k hkm
        rw [List.mem_append]
        rintro (hv | hv)
        · exact hrest k (by rw [keysOf_cons]; exact List.mem_cons_of_mem kv.1 hkm) hv
        · rw [List.mem_singleton] at hv
          exact hk_not_rest (hv ▸ hkm)
      rw [fireLoop_some H fuel (mdone ++ kv :: rest) visited kv hfind,
        hpure kv (List.mem_cons_self kv rest), applyHandlerSubs_nil]
      by_cases htr : kv.2.transient = true
      · have hdel : mapDelete (mdone ++ kv :: rest) kv.1 = mdone ++ rest := by
          unfold mapDelete
          rw [List.filter_append, filter_ne_of_not_mem mdone kv.1 hk_not_mdone,
            List.filter_cons_of_neg (by simp), filter_ne_of_not_mem rest kv.1 hk_not_rest]
        rw [if_pos htr, hdel]
        rw [ih mdone (visited ++ [kv.1]) fuel
          (fun p hp => hpure p (List.mem_cons_of_mem kv hp))
          (by simpa using Nat.le_of_succ_le_succ hfuel)
          (by
            rw [keysOf_append]
            exact (List.Nodup.sublist (by
              apply List.Sublist.append_left
              exact List.sublist_cons_self kv.1 (keysOf rest)) hnd_keys))
          (fun k hk => List.mem_append_left _ (hdone k hk)) hvis']
        by_cases hth : (H kv.2.func).throws = true
        · simp [htr, hth, keysOf]
        · simp [htr, hth, keysOf]
      · rw [if_neg htr]
        have hmm : mdone ++ kv :: rest = (mdone ++ [kv]) ++ rest := by simp
        rw [hmm, ih (mdone ++ [kv]) (visited ++ [kv.1]) fuel
          (fun p hp => hpure p (List.mem_cons_of_mem kv hp))
          (by simpa using Nat.le_of_succ_le_succ hfuel)
          (by rw [← hmm]; exact hnd)
          (fun k hk => by
            rw [keysOf_append] at hk
            rcases List.mem_append.mp hk with hk | hk
            · exact List.mem_append_left _ (hdone k hk)
            · simp [keysOf] at hk
              simp [hk]) hvis']
        by_cases hth : (H kv.2.func).throws = true
        · simp [htr, hth, keysOf]
        · simp [htr, hth, keysOf]

theorem find?_map_replace (reg : Registry) (e : String) (m : SubscriptionMap)
    (h : reg.any (fun p => p.1 == e) = true) :
    (reg.map (fun p => if p.1 == e then (e, m) else p)).find? (fun p => p.1 == e) =
      some (e, m) := by
  induction reg with
  | nil => cases h
  | cons p rest ih =>
    by_cases hp : p.1 = e
    · rw [List.map_cons, if_pos (by simpa using hp)]
      rw [List.find?_cons_of_pos _ (by simp)]
    · rw [List.map_cons, if_neg (by simpa using hp)]
      rw [List.find?_cons_of_neg _ (by simpa using hp)]
      apply ih
      rcases List.any_eq_true.mp h with ⟨x, hx, hxe⟩
      rcases List.mem_cons.mp hx with he | hm
      · exact absurd (by simpa [he] using hxe) hp
      · exact List.any_eq_true.mpr ⟨x, hm, hxe⟩

theorem getSubscribers_setSubscribers (reg : Registry) (e : String) (m : SubscriptionMap) :
    getSubscribers (setSubscribers reg e m) e = m := by
  unfold getSubscribers setSubscribers
  by_cases h : reg.any (fun p => p.1 == e) = true
  · rw [if_pos h, find?_map_replace reg e m h]
  · rw [if_neg h]
    have h' : ∀ x ∈ reg, ((fun p : String × SubscriptionMap => p.1 == e) x) = false := by
      intro x hx
      show (x.1 == e) = false
      by_cases hxe : (x.1 == e) = true
      · exact absurd (List.any_eq_true.mpr ⟨x, hx, hxe⟩) h
      · exact Bool.eq_false_iff.mpr hxe
    rw [find?_append_of_forall_false _ reg _ h']
    rw [List.find?_cons_of_pos _ (by simp)]

theorem getSubscribers_subscribe (reg : Registry) (ctxId e name : String) (func : Nat)
    (tr : Bool) :
    getSubscribers (subscribe reg ctxId e name func tr) e =
      mapSet (getSubscribers reg e) (subKey ctxId name) ⟨func, tr⟩ :=
  getSubscribers_setSubscribers reg e _

theorem getSubscribers_subscribeAll (e : String)
    (calls : List (String × String × Nat × Bool)) :
    ∀ reg : Registry,
      (∀ c ∈ calls, subKey c.1 c.2.1 ∉ keysOf (getSubscribers reg e)) →
      (calls.map fun c => subKey c.1 c.2.1).Nodup →
      getSubscribers (subscribeAll reg e calls) e =
        getSubscribers reg e ++
          calls.map (fun c => (subKey c.1 c.2.1, ⟨c.2.2.1, c.2.2.2⟩)) := by
  induction calls with
  | nil =>
    intro reg _ _
    simp [subscribeAll]
  | cons c cs ih =>
    intro reg hfresh hnd
    rw [show subscribeAll reg e (c :: cs) =
      subscribeAll (subscribe reg c.1 e c.2.1 c.2.2.1 c.2.2.2) e cs from rfl]
    rw [List.map_cons, List.nodup_cons] at hnd
    have hsub : getSubscribers (subscribe reg c.1 e c.2.1 c.2.2.1 c.2.2.2) e =
        getSubscribers reg e ++ [(subKey c.1 c.2.1, ⟨c.2.2.1, c.2.2.2⟩)] := by
      rw [getSubscribers_subscribe,
        mapSet_fresh _ _ _ (hfresh c (List.mem_cons_self c cs))]
    rw [ih _ (by
        intro c2 hc2
        rw [hsub, keysOf_append]
        rw [List.mem_append]
        rintro (hm | hm)
        · exact hfresh c2 (List.mem_cons_of_mem c hc2) hm
        · simp only [keysOf, List.map_cons, List.map_nil, List.mem_singleton] at hm
          exact hnd.1 (hm ▸ List.mem_map_of_mem _ hc2))
      hnd.2]
    rw [hsub]
    simp

/-- One `fire` under handlers that do not mutate the registry: the invocation
list is the whole per-event map in insertion order, the transient entries are
removed, and the error log collects exactly the throwing identities. -/
theorem processEvent_pure (H : Nat → HandlerBehavior) (hH : Pure H) (e : String)
    (reg : Registry) (fuel : Nat)
    (hnd : (keysOf (getSubscribers reg e)).Nodup)
    (hfuel : (getSubscribers reg e).length ≤ fuel) :
    processEvent H e reg fuel =
      (setSubscribers reg e ((getSubscribers reg e).filter (fun p => !p.2.transient)),
       (getSubscribers reg e).map (fun p => (p.1, p.2.func)),
       keysOf ((getSubscribers reg e).filter (fun p => (H p.2.func).throws))) := by
  unfold processEvent
  have hfl := fireLoop_pure H (getSubscribers reg e) [] [] fuel
    (fun p _ => hH p.2.func) hfuel
    (by simpa using hnd) (by simp [keysOf]) (by simp)
  simp only [List.nil_append] at hfl
  rw [hfl]

theorem keysOf_mapSet_mem (m : SubscriptionMap) (k : String) (v : Subscription)
    (h : k ∈ keysOf m) : keysOf (mapSet m k v) = keysOf m := by
  rw [mapSet_mem m k v h]
  unfold keysOf
  rw [List.map_map]
  apply List.map_congr_left
  intro p _
  by_cases hp : p.1 = k
  · simp [hp]
  · simp [hp]

theorem mem_mapSet_self (m : SubscriptionMap) (k : String) (v : Subscription)
    (h : k ∈ keysOf m) : (k, v) ∈ mapSet m k v := by
  rw [mapSet_mem m k v h]
  rcases List.mem_map.mp h with ⟨p, hp, hpk⟩
  have h2 := List.mem_map_of_mem
    (fun p : String × Subscription => if p.1 == k then (k, v) else p) hp
  simpa [hpk] using h2

theorem not_mem_keys_filter_transient (m : SubscriptionMap) (k : String) (v : Subscription)
    (hnd : (keysOf m).Nodup) (hkv : (k, v) ∈ m) (htr : v.transient = true) :
    k ∉ keysOf (m.filter (fun p => !p.2.transient)) := by
  intro hk
  rcases List.mem_map.mp hk with ⟨p, hp, hpk⟩
  have hpm := List.mem_of_mem_filter hp
  have hflt := List.of_mem_filter hp
  have hkp : (k, p.2) ∈ m := by
    have : (k, p.2) = p := Prod.ext hpk.symm rfl
    rw [this]
    exact hpm
  have hv : p.2 = v := mem_unique_of_nodup m k p.2 v hnd hkp hkv
  rw [hv, htr] at hflt
  cases hflt

theorem trace_filter_key_nil (m : SubscriptionMap) (k : String)
    (h : k ∉ keysOf m) :
    (m.map (fun p => (p.1, p.2.func))).filter (fun q => q.1 == k) = [] := by
  induction m with
  | nil => rfl
  | cons p rest ih =>
    have hp : p.1 ≠ k := fun he => h (by rw [keysOf_cons]; exact he ▸ List.mem_cons_self _ _)
    rw [List.map_cons, List.filter_cons_of_neg (by simpa using hp)]
    exact ih (fun hm => h (by rw [keysOf_cons]; exact List.mem_cons_of_mem _ hm))

theorem trace_filter_key_singleton (m : SubscriptionMap) (k : String) (v : Subscription)
    (hnd : (keysOf m).Nodup) (hkv : (k, v) ∈ m) :
    (m.map (fun p => (p.1, p.2.func))).filter (fun q => q.1 == k) = [(k, v.func)] := by
  induction m with
  | nil => cases hkv
  | cons p rest ih =>
    rw [keysOf_cons, List.nodup_cons] at hnd
    by_cases hp : p.1 = k
    · have hpv : p = (k, v) := by
        have hkp : (k, p.2) ∈ p :: rest := by
          have : (k, p.2) = p := Prod.ext hp.symm rfl
          rw [this]
          exact List.mem_cons_self p rest
        have := mem_unique_of_nodup (p :: rest) k p.2 v
          (by rw [keysOf_cons]; exact List.nodup_cons.mpr hnd) hkp hkv
        exact Prod.ext hp (by simpa using this)
      rw [List.map_cons, List.filter_cons_of_pos (by simp [hp])]
      rw [hpv]
      have hrest : k ∉ keysOf rest := hp ▸ hnd.1
      rw [trace_filter_key_nil rest k hrest]
    · have hkv' : (k, v) ∈ rest := by
        rcases List.mem_cons.mp hkv with he | hm
        · exact absurd (congrArg Prod.fst he.symm) hp
        · exact hm
      rw [List.map_cons, List.filter_cons_of_neg (by simpa using hp)]
      exact ih hnd.2 hkv'

theorem applyHandlerSubs_single (m : SubscriptionMap) (c : String × String × Nat × Bool) :
    applyHandlerSubs m [c] = mapSet m (subKey c.1 c.2.1) ⟨c.2.2.1, c.2.2.2⟩ := rfl

/-- Firing over a map in which exactly one handler (that of the entry
`(k0, v0)`) performs a single `subscribe` of a fresh key on the same event
while it runs: the live iteration reaches the appended entry in the same run. -/
theorem fireLoop_single_adder (H : Nat → HandlerBehavior)
    (k0 : String) (v0 : Subscription) (ctxN nmN : String) (fN : Nat)
    (mB : SubscriptionMap)
    (hsub0 : (H v0.func).subs = [(ctxN, nmN, fN, false)])
    (hpureN : (H fN).subs = [])
    (hpureB : ∀ p ∈ mB, (H p.2.func).subs = [])
    (hv0t : v0.transient = false)
    (hBt : ∀ p ∈ mB, p.2.transient = false) :
    ∀ (mA mdone : SubscriptionMap) (visited : List String) (fuel : Nat),
      mA.length + mB.length + 2 ≤ fuel →
      (keysOf (mdone ++ mA ++ (k0, v0) :: mB)).Nodup →
      subKey ctxN nmN ∉ keysOf (mdone ++ mA ++ (k0, v0) :: mB) →
      subKey ctxN nmN ∉ visited →
      (∀ k ∈ keysOf mdone, k ∈ visited) →
      (∀ k ∈ keysOf (mA ++ (k0, v0) :: mB), k ∉ visited) →
      (∀ p ∈ mA, (H p.2.func).subs = []) →
      (∀ p ∈ mA, p.2.transient = false) →
      (fireLoop H fuel (mdone ++ mA ++ (k0, v0) :: mB) visited).2.1 =
          mA.map (fun p => (p.1, p.2.func)) ++ (k0, v0.func) ::
            mB.map (fun p => (p.1, p.2.func)) ++ [(subKey ctxN nmN, fN)] ∧
        (fireLoop H fuel (mdone ++ mA ++ (k0, v0) :: mB) visited).1 =
          mdone ++ mA ++ (k0, v0) :: mB ++
            [(subKey ctxN nmN, (⟨fN, false⟩ : Subscription))] := by
  intro mA
  induction mA with
  | nil =>
    intro mdone visited fuel hfuel hnd hfresh hfreshv hdone hrest _ _
    simp only [List.append_nil, List.nil_append, List.map_nil] at hnd hfresh hrest ⊢
    cases fuel with
    | zero => exact absurd hfuel (by simp)
    | succ fuel =>
      have hk0_not_vis : k0 ∉ visited := hrest k0 (by simp [keysOf])
      have hfind : (mdone ++ (k0, v0) :: mB).find?
          (fun p => !(visited.contains p.1)) = some (k0, v0) := by
        rw [find?_append_of_forall_false _ mdone _ (fun x hx => by
          simp [hdone x.1 (List.mem_map_of_mem Prod.fst hx)])]
        rw [List.find?_cons_of_pos _ (by
          show (!(visited.contains (k0, v0).1)) = true
          rw [contains_eq_false_of_not_mem hk0_not_vis]
          rfl)]
      rw [fireLoop_some H fuel _ visited (k0, v0) hfind]
      rw [hsub0, applyHandlerSubs_single, hv0t]
      rw [if_neg (by simp)]
      rw [mapSet_fresh _ _ _ hfresh]
      have hnd_keys : (keysOf mdone ++ k0 :: keysOf mB).Nodup := by
        rw [keysOf_append, keysOf_cons] at hnd
        exact hnd
      have hk0_not_mdone : k0 ∉ keysOf mdone := by
        intro hm
        exact (List.disjoint_of_nodup_append hnd_keys) hm (by simp)
      have hk0_not_mB : k0 ∉ keysOf mB := by
        have := (List.nodup_append.mp hnd_keys).2.1
        exact (List.nodup_cons.mp this).1
      have hrw : (mdone ++ (k0, v0) :: mB) ++ [(subKey ctxN nmN, (⟨fN, false⟩ : Subscription))] =
          (mdone ++ [(k0, v0)]) ++ (mB ++ [(subKey ctxN nmN, ⟨fN, false⟩)]) := by
        simp
      rw [hrw]
      have hknew_ne_k0 : subKey ctxN nmN ≠ k0 := by
        intro he
        exact hfresh (he ▸ (by
          rw [keysOf_append, keysOf_cons]
          exact List.mem_append_right _ (List.mem_cons_self _ _)))
      have hknew_not_mB : subKey ctxN nmN ∉ keysOf mB := by
        intro hm
        exact hfresh (by
          rw [keysOf_append, keysOf_cons]
          exact List.mem_append_right _ (List.mem_cons_of_mem _ hm))
      have hfl := fireLoop_pure H (mB ++ [(subKey ctxN nmN, ⟨fN, false⟩)])
        (mdone ++ [(k0, v0)]) (visited ++ [k0]) fuel
        (by
          intro q hq
          rcases List.mem_append.mp hq with h1 | h1
          · exact hpureB q h1
          · simp only [List.mem_singleton] at h1
            rw [h1]
            exact hpureN)
        (by
          rw [List.length_append]
          simp only [List.length_nil, List.length_cons] at hfuel ⊢
          omega)
        (by
          rw [← hrw, keysOf_append]
          refine List.nodup_append.mpr ⟨hnd, List.nodup_singleton _, ?_⟩
          intro a ha hb
          simp only [keysOf, List.map_cons, List.map_nil, List.mem_singleton] at hb
          exact hfresh (hb ▸ ha))
        (by
          intro k hk
          rw [keysOf_append, keysOf_cons] at hk
          rcases List.mem_append.mp hk with h1 | h1
          · exact List.mem_append_left _ (hdone k h1)
          · simp only [keysOf, List.map_nil, List.mem_cons, List.not_mem_nil, or_false] at h1
            rw [h1]
            exact List.mem_append_right _ (List.mem_singleton.mpr rfl))
        (by
          intro k hk
          rw [keysOf_append] at hk
          intro hv
          rcases List.mem_append.mp hv with hv | hv
          · rcases List.mem_append.mp hk with h1 | h1
            · exact hrest k (by
                rw [keysOf_cons]
                exact List.mem_cons_of_mem _ h1) hv
            · simp only [keysOf, List.map_cons, List.map_nil, List.mem_singleton] at h1
              exact hfreshv (h1 ▸ hv)
          · rw [List.mem_singleton] at hv
            rcases List.mem_append.mp hk with h1 | h1
            · exact hk0_not_mB (hv ▸ h1)
            · simp only [keysOf, List.map_cons, List.map_nil, List.mem_singleton] at h1
              exact hknew_ne_k0 (h1 ▸ hv))
      rw [hfl]
      have hfilt : (mB ++ [(subKey ctxN nmN, (⟨fN, false⟩ : Subscription))]).filter
          (fun p => !p.2.transient) = mB ++ [(subKey ctxN nmN, ⟨fN, false⟩)] := by
        rw [List.filter_eq_self]
        intro a ha
        rcases List.mem_append.mp ha with h1 | h1
        · simp [hBt a h1]
        · simp only [List.mem_singleton] at h1
          simp [h1]
      rw [hfilt]
      constructor
      · simp
      · simp
  | cons p mA ih =>
    intro mdone visited fuel hfuel hnd hfresh hfreshv hdone hrest hpureA hAt
    cases fuel with
    | zero => exact absurd hfuel (by rw [List.length_cons]; omega)
    | succ fuel =>
      have hp_not_vis : p.1 ∉ visited := hrest p.1 (by simp [keysOf])
      have hshape : mdone ++ (p :: mA) ++ (k0, v0) :: mB =
          mdone ++ p :: (mA ++ (k0, v0) :: mB) := by simp
      have hfind : (mdone ++ (p :: mA) ++ (k0, v0) :: mB).find?
          (fun q => !(visited.contains q.1)) = some p := by
        rw [hshape]
        rw [find?_append_of_forall_false _ mdone _ (fun x hx => by
          simp [hdone x.1 (List.mem_map_of_mem Prod.fst hx)])]
        rw [List.find?_cons_of_pos _ (by
          show (!(visited.contains p.1)) = true
          rw [contains_eq_false_of_not_mem hp_not_vis]
          rfl)]
      have hnd' : (keysOf mdone ++ p.1 :: keysOf (mA ++ (k0, v0) :: mB)).Nodup := by
        have h0 := hnd
        rw [hshape, keysOf_append, keysOf_cons] at h0
        exact h0
      have hp_not_tail : p.1 ∉ keysOf (mA ++ (k0, v0) :: mB) := by
        have := (List.nodup_append.mp hnd').2.1
        exact (List.nodup_cons.mp this).1
      have hp_mem_keys : p.1 ∈ keysOf (mdone ++ (p :: mA) ++ (k0, v0) :: mB) := by
        rw [hshape, keysOf_append, keysOf_cons]
        exact List.mem_append_right _ (List.mem_cons_self _ _)
      rw [fireLoop_some H fuel _ visited p hfind]
      rw [hpureA p (List.mem_cons_self p mA), applyHandlerSubs_nil]
      rw [if_neg (by simp [hAt p (List.mem_cons_self p mA)])]
      have hshape2 : mdone ++ (p :: mA) ++ (k0, v0) :: mB =
          (mdone ++ [p]) ++ mA ++ (k0, v0) :: mB := by simp
      rw [hshape2]
      have hih := ih (mdone ++ [p]) (visited ++ [p.1]) fuel
        (by
          rw [List.length_cons] at hfuel
          omega)
        (by rw [← hshape2]; exact hnd)
        (by rw [← hshape2]; exact hfresh)
        (by
          intro hv
          rcases List.mem_append.mp hv with hv | hv
          · exact hfreshv hv
          · rw [List.mem_singleton] at hv
            exact hfresh (hv ▸ hp_mem_keys))
        (by
          intro k hk
          rw [keysOf_append] at hk
          rcases List.mem_append.mp hk with h1 | h1
          · exact List.mem_append_left _ (hdone k h1)
          · simp only [keysOf, List.map_cons, List.map_nil, List.mem_singleton] at h1
            rw [h1]
            exact List.mem_append_right _ (List.mem_singleton.mpr rfl))
        (by
          intro k hk
          intro hv
          rcases List.mem_append.mp hv with hv | hv
          · exact hrest k (by
              simp only [List.cons_append, keysOf_cons]
              exact List.mem_cons_of_mem _ hk) hv
          · rw [List.mem_singleton] at hv
            exact hp_not_tail (hv ▸ hk))
        (fun q hq => hpureA q (List.mem_cons_of_mem p hq))
        (fun q hq => hAt q (List.mem_cons_of_mem p hq))
      rcases hih with ⟨ht, hm⟩
      rw [ht, hm]
      constructor
      · simp
      · simp

/-- C9 counterexample: the claim states that an entry subscribed on the same
event kind by a handler running during a fire is not invoked during that same
fire.  In the code the `for...of` loop iterates the live JavaScript `Map`, and
`Map.set` appends new keys, so the in-progress iteration reaches them: with a
single entry whose handler subscribes the fresh key `ext.b - added`, that new
entry is invoked by the very fire that added it. -/
theorem fire_visits_entry_added_during_fire_cex :
    (subKey "ext.b" "added") ∉ keysOf (getSubscribers
        (subscribe [] "ext.a" "connected" "orig" 0 false) "connected") ∧
    (subKey "ext.b" "added", 1) ∈
      (processEvent
        (fun i => if i = 0 then ⟨false, [("ext.b", "added", 1, false)]⟩ else ⟨false, []⟩)
        "connected" (subscribe [] "ext.a" "connected" "orig" 0 false) 4).2.1 := by
  decide

/-- C9 (amended): if a handler invoked during a fire subscribes a new key on
the same event kind, the newly added entry IS invoked during that same fire —
it is appended at the end of the collection and the live iteration reaches it;
apart from the insertions performed by the handler's own `subscribe` calls,
the fire mutates the collection only through transient removal (here, with no
transient entries, the final collection is exactly the original entries plus
the appended one). -/
theorem fire_invokes_entry_added_during_fire (H : Nat → HandlerBehavior) (e : String)
    (reg : Registry) (fuel : Nat) (mA mB : SubscriptionMap) (k0 : String)
    (v0 : Subscription) (ctxN nmN : String) (fN : Nat)
    (hm : getSubscribers reg e = mA ++ (k0, v0) :: mB)
    (hsub0 : (H v0.func).subs = [(ctxN, nmN, fN, false)])
    (hpureN : (H fN).subs = [])
    (hpureA : ∀ p ∈ mA, (H p.2.func).subs = [])
    (hpureB : ∀ p ∈ mB, (H p.2.func).subs = [])
    (hAt : ∀ p ∈ mA, p.2.transient = false)
    (hv0t : v0.transient = false)
    (hBt : ∀ p ∈ mB, p.2.transient = false)
    (hfresh : subKey ctxN nmN ∉ keysOf (getSubscribers reg e))
    (hnd : (keysOf (getSubscribers reg e)).Nodup)
    (hfuel : (getSubscribers reg e).length + 1 ≤ fuel) :
    (processEvent H e reg fuel).2.1 =
      mA.map (fun p => (p.1, p.2.func)) ++ (k0, v0.func) ::
        mB.map (fun p => (p.1, p.2.func)) ++ [(subKey ctxN nmN, fN)] ∧
    getSubscribers (processEvent H e reg fuel).1 e =
      getSubscribers reg e ++ [(subKey ctxN nmN, (⟨fN, false⟩ : Subscription))] := by
  have hadder := fireLoop_single_adder H k0 v0 ctxN nmN fN mB hsub0 hpureN hpureB hv0t hBt
    mA [] [] fuel
    (by
      rw [hm, List.length_append, List.length_cons] at hfuel
      omega)
    (by
      rw [List.nil_append, ← hm]
      exact hnd)
    (by
      rw [List.nil_append, ← hm]
      exact hfresh)
    (List.not_mem_nil _)
    (by
      intro k hk
      exact absurd hk (List.not_mem_nil k))
    (fun k _ => List.not_mem_nil k)
    hpureA hAt
  simp only [List.nil_append] at hadder
  rcases hadder with ⟨ht, hmap⟩
  constructor
  · show (processEvent H e reg fuel).2.1 = _
    simp only [processEvent]
    rw [hm, ht]
  · show getSubscribers (processEvent H e reg fuel).1 e = _
    simp only [processEvent]
    rw [hm, getSubscribers_setSubscribers, hmap]

theorem fire_invokes_entry_added_during_fire_witness :
    (processEvent
        (fun i => if i = 0 then ⟨false, [("ext.b", "added", 1, false)]⟩ else ⟨false, []⟩)
        "connected" (subscribe [] "ext.a" "connected" "orig" 0 false) 2).2.1 =
      ([] : SubscriptionMap).map (fun p => (p.1, p.2.func)) ++ (subKey "ext.a" "orig", 0) ::
        ([] : SubscriptionMap).map (fun p => (p.1, p.2.func)) ++ [(subKey "ext.b" "added", 1)] ∧
    getSubscribers (processEvent
        (fun i => if i = 0 then ⟨false, [("ext.b", "added", 1, false)]⟩ else ⟨false, []⟩)
        "connected" (subscribe [] "ext.a" "connected" "orig" 0 false) 2).1 "connected" =
      getSubscribers (subscribe [] "ext.a" "connected" "orig" 0 false) "connected" ++
        [(subKey "ext.b" "added", (⟨1, false⟩ : Subscription))] :=
  fire_invokes_entry_added_during_fire
    (fun i => if i = 0 then ⟨false, [("ext.b", "added", 1, false)]⟩ else ⟨false, []⟩)
    "connected" (subscribe [] "ext.a" "connected" "orig" 0 false) 2
    [] [] (subKey "ext.a" "orig") ⟨0, false⟩ "ext.b" "added" 1
    (by decide) rfl rfl
    (fun p hp => absurd hp (List.not_mem_nil p))
    (fun p hp => absurd hp (List.not_mem_nil p))
    (fun p hp => absurd hp (List.not_mem_nil p))
    rfl
    (fun p hp => absurd hp (List.not_mem_nil p))
    (by decide) (by decide) (by decide)

/-- C1: for every sequence of `subscribe` calls with distinct `(ownerKey, name)`
keys on the same event kind, a fire invokes every currently registered handler
for that kind strictly in the order the entries were first inserted; the
invocation list is the sequential execution order, each handler being awaited
before the next is invoked (the model serializes the `await` in
`src/Instance.ts:242`). -/
theorem fire_invokes_in_insertion_order (e : String)
    (calls : List (String × String × Nat × Bool)) (H : Nat → HandlerBehavior)
    (fuel : Nat) (hH : Pure H)
    (hkeys : (calls.map fun c => subKey c.1 c.2.1).Nodup)
    (hfuel : calls.length ≤ fuel) :
    (processEvent H e (subscribeAll [] e calls) fuel).2.1 =
      calls.map (fun c => (subKey c.1 c.2.1, c.2.2.1)) := by
  have hreg := getSubscribers_subscribeAll e calls []
    (by intro c _ hm; simp [getSubscribers, keysOf] at hm) hkeys
  have hempty : getSubscribers ([] : Registry) e = [] := rfl
  rw [hempty, List.nil_append] at hreg
  have hnd : (keysOf (getSubscribers (subscribeAll [] e calls) e)).Nodup := by
    rw [hreg]
    simpa [keysOf, List.map_map, Function.comp] using hkeys
  have hlen : (getSubscribers (subscribeAll [] e calls) e).length ≤ fuel := by
    rw [hreg]
    simpa using hfuel
  rw [processEvent_pure H hH e _ fuel hnd hlen, hreg]
  simp [List.map_map, Function.comp]

theorem fire_invokes_in_insertion_order_witness :
    (processEvent (fun _ => ⟨false, []⟩) "connected"
       (subscribeAll [] "connected"
         [("ext.a", "refresh", 1, false), ("ext.b", "notify", 2, true)]) 2).2.1 =
      [(subKey "ext.a" "refresh", 1), (subKey "ext.b" "notify", 2)] :=
  fire_invokes_in_insertion_order "connected"
    [("ext.a", "refresh", 1, false), ("ext.b", "notify", 2, true)]
    (fun _ => ⟨false, []⟩) 2 (fun _ => rfl) (by decide) (by decide)

/-- C6: an entry registered with the transient flag that a fire invokes is
removed from the event kind's collection synchronously after its handler
returns or throws, so it is absent from the collection and from the
invocations of every subsequent fire of that kind, whether or not the
invocation raised (`H` may make the handler throw). -/
theorem transient_removed_after_fire (H : Nat → HandlerBehavior) (e : String)
    (reg : Registry) (fuel1 fuel2 : Nat) (k : String) (v : Subscription)
    (hH : Pure H)
    (hnd : (keysOf (getSubscribers reg e)).Nodup)
    (hf1 : (getSubscribers reg e).length ≤ fuel1)
    (hf2 : (getSubscribers reg e).length ≤ fuel2)
    (hkv : (k, v) ∈ getSubscribers reg e) (htr : v.transient = true) :
    (k, v.func) ∈ (processEvent H e reg fuel1).2.1 ∧
    k ∉ keysOf (getSubscribers (processEvent H e reg fuel1).1 e) ∧
    k ∉ ((processEvent H e (processEvent H e reg fuel1).1 fuel2).2.1).map Prod.fst := by
  have hpe := processEvent_pure H hH e reg fuel1 hnd hf1
  have habs := not_mem_keys_filter_transient (getSubscribers reg e) k v hnd hkv htr
  have hget : getSubscribers (processEvent H e reg fuel1).1 e =
      (getSubscribers reg e).filter (fun p => !p.2.transient) := by
    rw [hpe]
    exact getSubscribers_setSubscribers reg e _
  refine ⟨?_, ?_, ?_⟩
  · rw [hpe]
    exact List.mem_map_of_mem _ hkv
  · rw [hget]
    exact habs
  · have hnd2 : (keysOf (getSubscribers (processEvent H e reg fuel1).1 e)).Nodup := by
      rw [hget]
      exact List.Nodup.sublist (List.Sublist.map _ (List.filter_sublist _)) hnd
    have hlen2 : (getSubscribers (processEvent H e reg fuel1).1 e).length ≤ fuel2 := by
      rw [hget]
      exact le_trans (List.length_filter_le _ _) hf2
    rw [processEvent_pure H hH e _ fuel2 hnd2 hlen2]
    intro hmem
    rw [hget] at hmem
    apply habs
    simpa [keysOf, List.map_map, Function.comp] using hmem

theorem transient_removed_after_fire_witness :
    ((subKey "ext.b" "notify", 2) ∈ (processEvent (fun _ => ⟨true, []⟩) "connected"
        (subscribe [] "ext.b" "connected" "notify" 2 true) 1).2.1) ∧
    (subKey "ext.b" "notify") ∉ keysOf (getSubscribers
        (processEvent (fun _ => ⟨true, []⟩) "connected"
          (subscribe [] "ext.b" "connected" "notify" 2 true) 1).1 "connected") ∧
    (subKey "ext.b" "notify") ∉ ((processEvent (fun _ => ⟨true, []⟩) "connected"
        (processEvent (fun _ => ⟨true, []⟩) "connected"
          (subscribe [] "ext.b" "connected" "notify" 2 true) 1).1 1).2.1).map Prod.fst :=
  transient_removed_after_fire (fun _ => ⟨true, []⟩) "connected"
    (subscribe [] "ext.b" "connected" "notify" 2 true) 1 1
    (subKey "ext.b" "notify") ⟨2, true⟩ (fun _ => rfl)
    (by decide) (by decide) (by decide) (by decide) rfl

/-- C7: a handler that raises during a fire is caught and logged with its
identity, and does not prevent any later handler of that same fire from
running: the invocation list equals the full entry list in order no matter
which handlers throw, the error log is exactly the identities of the throwing
handlers, and the firing function returns normally, so the fault does not
propagate out of it. -/
theorem handler_fault_isolated (H : Nat → HandlerBehavior) (e : String)
    (reg : Registry) (fuel : Nat) (hH : Pure H)
    (hnd : (keysOf (getSubscribers reg e)).Nodup)
    (hfuel : (getSubscribers reg e).length ≤ fuel) :
    (processEvent H e reg fuel).2.1 =
      (getSubscribers reg e).map (fun p => (p.1, p.2.func)) ∧
    (processEvent H e reg fuel).2.2 =
      keysOf ((getSubscribers reg e).filter (fun p => (H p.2.func).throws)) := by
  rw [processEvent_pure H hH e reg fuel hnd hfuel]
  exact ⟨rfl, rfl⟩

theorem handler_fault_isolated_witness :
    (processEvent (fun i => ⟨i == 1, []⟩) "connected"
       (subscribeAll [] "connected"
         [("ext.a", "boom", 1, false), ("ext.b", "after", 2, false)]) 2).2.1 =
      (getSubscribers (subscribeAll [] "connected"
         [("ext.a", "boom", 1, false), ("ext.b", "after", 2, false)]) "connected").map
        (fun p => (p.1, p.2.func)) ∧
    (processEvent (fun i => ⟨i == 1, []⟩) "connected"
       (subscribeAll [] "connected"
         [("ext.a", "boom", 1, false), ("ext.b", "after", 2, false)]) 2).2.2 =
      keysOf ((getSubscribers (subscribeAll [] "connected"
         [("ext.a", "boom", 1, false), ("ext.b", "after", 2, false)]) "connected").filter
        (fun p => ((fun i : Nat => (⟨i == 1, []⟩ : HandlerBehavior)) p.2.func).throws)) :=
  handler_fault_isolated (fun i => ⟨i == 1, []⟩) "connected"
    (subscribeAll [] "connected"
      [("ext.a", "boom", 1, false), ("ext.b", "after", 2, false)]) 2
    (fun _ => rfl) (by decide) (by decide)

/-- C8: subscribing again with an already registered `(ownerKey, name)` key
replaces the stored handler without changing the entry's position (the key
order of the collection is unchanged) and without duplicating invocations: the
next fire invokes each entry once, and its invocations under the re-subscribed
key are exactly one call of the latest handler. -/
theorem resubscribe_replaces_in_place (reg : Registry) (ctxId e name : String)
    (f2 : Nat) (tr2 : Bool) (H : Nat → HandlerBehavior) (fuel : Nat) (hH : Pure H)
    (hmem : subKey ctxId name ∈ keysOf (getSubscribers reg e))
    (hnd : (keysOf (getSubscribers reg e)).Nodup)
    (hfuel : (getSubscribers reg e).length ≤ fuel) :
    keysOf (getSubscribers (subscribe reg ctxId e name f2 tr2) e) =
      keysOf (getSubscribers reg e) ∧
    (subKey ctxId name, (⟨f2, tr2⟩ : Subscription)) ∈
      getSubscribers (subscribe reg ctxId e name f2 tr2) e ∧
    (processEvent H e (subscribe reg ctxId e name f2 tr2) fuel).2.1 =
      (getSubscribers (subscribe reg ctxId e name f2 tr2) e).map
        (fun p => (p.1, p.2.func)) ∧
    ((processEvent H e (subscribe reg ctxId e name f2 tr2) fuel).2.1).filter
        (fun q => q.1 == subKey ctxId name) = [(subKey ctxId name, f2)] := by
  have hget := getSubscribers_subscribe reg ctxId e name f2 tr2
  have hkeys : keysOf (getSubscribers (subscribe reg ctxId e name f2 tr2) e) =
      keysOf (getSubscribers reg e) := by
    rw [hget]
    exact keysOf_mapSet_mem _ _ _ hmem
  have hnd2 : (keysOf (getSubscribers (subscribe reg ctxId e name f2 tr2) e)).Nodup := by
    rw [hkeys]
    exact hnd
  have hlen2 : (getSubscribers (subscribe reg ctxId e name f2 tr2) e).length ≤ fuel := by
    have h1 := congrArg List.length hkeys
    simp only [keysOf, List.length_map] at h1
    omega
  have hmem2 : (subKey ctxId name, (⟨f2, tr2⟩ : Subscription)) ∈
      getSubscribers (subscribe reg ctxId e name f2 tr2) e := by
    rw [hget]
    exact mem_mapSet_self _ _ _ hmem
  have hpe := processEvent_pure H hH e _ fuel hnd2 hlen2
  refine ⟨hkeys, hmem2, ?_, ?_⟩
  · rw [hpe]
  · rw [hpe]
    exact trace_filter_key_singleton _ _ ⟨f2, tr2⟩ hnd2 hmem2

theorem resubscribe_replaces_in_place_witness :
    keysOf (getSubscribers (subscribe
        (subscribeAll [] "connected" [("ext.a", "h", 1, false), ("ext.b", "g", 2, false)])
        "ext.a" "connected" "h" 9 false) "connected") =
      keysOf (getSubscribers
        (subscribeAll [] "connected" [("ext.a", "h", 1, false), ("ext.b", "g", 2, false)])
        "connected") ∧
    (subKey "ext.a" "h", (⟨9, false⟩ : Subscription)) ∈
      getSubscribers (subscribe
        (subscribeAll [] "connected" [("ext.a", "h", 1, false), ("ext.b", "g", 2, false)])
        "ext.a" "connected" "h" 9 false) "connected" ∧
    (processEvent (fun _ => ⟨false, []⟩) "connected" (subscribe
        (subscribeAll [] "connected" [("ext.a", "h", 1, false), ("ext.b", "g", 2, false)])
        "ext.a" "connected" "h" 9 false) 2).2.1 =
      (getSubscribers (subscribe
        (subscribeAll [] "connected" [("ext.a", "h", 1, false), ("ext.b", "g", 2, false)])
        "ext.a" "connected" "h" 9 false) "connected").map (fun p => (p.1, p.2.func)) ∧
    ((processEvent (fun _ => ⟨false, []⟩) "connected" (subscribe
        (subscribeAll [] "connected" [("ext.a", "h", 1, false), ("ext.b", "g", 2, false)])
        "ext.a" "connected" "h" 9 false) 2).2.1).filter
        (fun q => q.1 == subKey "ext.a" "h") = [(subKey "ext.a" "h", 9)] :=
  resubscribe_replaces_in_place
    (subscribeAll [] "connected" [("ext.a", "h", 1, false), ("ext.b", "g", 2, false)])
    "ext.a" "connected" "h" 9 false (fun _ => ⟨false, []⟩) 2 (fun _ => rfl)
    (by decide) (by decide) (by decide)

theorem deprecatedKey_assoc (fn : String) (c : Nat) :
    deprecatedKey fn c = "deprecated - " ++ (normName fn ++ ("_" ++ Nat.repr c)) := by
  rw [show deprecatedKey fn c = (("deprecated - " ++ normName fn) ++ "_") ++ Nat.repr c from rfl,
    String.append_assoc, String.append_assoc]

theorem deprecatedKey_data (fn : String) (c : Nat) :
    (deprecatedKey fn c).data =
      "deprecated - ".data ++ ((normName fn).data ++ '_' :: Decimal.decRepr c) := by
  rw [deprecatedKey_assoc]
  simp only [String.data_append]
  rw [Decimal.repr_data_eq_decRepr]
  rfl

theorem deprecatedKey_reverse (fn : String) (c : Nat) :
    ((deprecatedKey fn c).data).reverse =
      (Decimal.decRepr c).reverse ++ '_' ::
        ((normName fn).data.reverse ++ "deprecated - ".data.reverse) := by
  rw [deprecatedKey_data]
  simp [List.reverse_append, List.append_assoc]

theorem deprecatedKey_count_inj {fn1 fn2 : String} {c1 c2 : Nat}
    (h : deprecatedKey fn1 c1 = deprecatedKey fn2 c2) : c1 = c2 := by
  have hd := congrArg (fun s : String => s.data.reverse) h
  simp only [deprecatedKey_reverse] at hd
  have hnm1 : ('_' : Char) ∉ (Decimal.decRepr c1).reverse := by
    rw [List.mem_reverse]
    exact Decimal.underscore_not_mem_decRepr c1
  have hnm2 : ('_' : Char) ∉ (Decimal.decRepr c2).reverse := by
    rw [List.mem_reverse]
    exact Decimal.underscore_not_mem_decRepr c2
  have hsplit := Decimal.split_at_marker hnm1 hnm2 hd
  have : Decimal.decRepr c1 = Decimal.decRepr c2 := by
    have := congrArg List.reverse hsplit.1
    simpa using this
  exact Decimal.decRepr_inj this

theorem deprecatedKey_not_mem (m : SubscriptionMap) (count : Nat) (fn : String)
    (hinv : DepInv m count) : deprecatedKey fn count ∉ keysOf m := by
  intro hmem
  rcases hinv _ hmem with hshape | ⟨fn2, c2, hk, hc⟩
  · exact hshape (normName fn ++ ("_" ++ Nat.repr count)) (deprecatedKey_assoc fn count)
  · have := deprecatedKey_count_inj hk
    omega

theorem depInv_extend (m : SubscriptionMap) (count : Nat) (fn : String) (v : Subscription)
    (hinv : DepInv m count) :
    DepInv (m ++ [(deprecatedKey fn count, v)]) (count + 1) := by
  intro k hk
  rw [keysOf_append] at hk
  rcases List.mem_append.mp hk with h1 | h1
  · rcases hinv k h1 with h | ⟨fn2, c2, hk2, hc⟩
    · exact Or.inl h
    · exact Or.inr ⟨fn2, c2, hk2, by omega⟩
  · simp only [keysOf, List.map_cons, List.map_nil, List.mem_singleton] at h1
    exact Or.inr ⟨fn, count, h1, by omega⟩

theorem getSubscribers_onEvent (reg : Registry) (count : Nat) (e : String) (f : Nat)
    (fn : String) (hinv : DepInv (getSubscribers reg e) count) :
    getSubscribers (onEvent reg count e f fn).1 e =
      getSubscribers reg e ++ [(deprecatedKey fn count, ⟨f, false⟩)] := by
  show getSubscribers (setSubscribers reg e _) e = _
  rw [getSubscribers_setSubscribers,
    mapSet_fresh _ _ _ (deprecatedKey_not_mem _ _ _ hinv)]

/-- C10: every `onEvent` call registers its function under a fresh key built
from the function name and the strictly increasing `deprecationCount`, in the
same per-event registry `subscribe` uses, and never replaces an existing entry
(for any registry satisfying the reachable-state key invariant `DepInv`);
hence registering the same function twice through `onEvent` appends two
distinct entries, and a subsequent fire invokes each of them once. -/
theorem onEvent_appends_fresh_entries (reg : Registry) (count : Nat) (e : String)
    (f : Nat) (fn : String) (H : Nat → HandlerBehavior) (fuel : Nat) (hH : Pure H)
    (hinv : DepInv (getSubscribers reg e) count)
    (hnd : (keysOf (getSubscribers reg e)).Nodup)
    (hfuel : (getSubscribers reg e).length + 2 ≤ fuel) :
    (onEvent reg count e f fn).2 = count + 1 ∧
    deprecatedKey fn count ≠ deprecatedKey fn (count + 1) ∧
    getSubscribers (onEvent (onEvent reg count e f fn).1
        (onEvent reg count e f fn).2 e f fn).1 e =
      getSubscribers reg e ++
        [(deprecatedKey fn count, ⟨f, false⟩), (deprecatedKey fn (count + 1), ⟨f, false⟩)] ∧
    (processEvent H e (onEvent (onEvent reg count e f fn).1
        (onEvent reg count e f fn).2 e f fn).1 fuel).2.1 =
      (getSubscribers reg e ++
        [(deprecatedKey fn count, (⟨f, false⟩ : Subscription)),
         (deprecatedKey fn (count + 1), ⟨f, false⟩)]).map
        (fun p => (p.1, p.2.func)) := by
  have hg1 := getSubscribers_onEvent reg count e f fn hinv
  have hinv1 : DepInv (getSubscribers (onEvent reg count e f fn).1 e) (count + 1) := by
    rw [hg1]
    exact depInv_extend _ _ _ _ hinv
  have hcnt : (onEvent reg count e f fn).2 = count + 1 := rfl
  have hg2 := getSubscribers_onEvent (onEvent reg count e f fn).1 (count + 1) e f fn hinv1
  rw [hg1] at hg2
  have hg2' : getSubscribers (onEvent (onEvent reg count e f fn).1
      (onEvent reg count e f fn).2 e f fn).1 e =
      getSubscribers reg e ++
        [(deprecatedKey fn count, ⟨f, false⟩), (deprecatedKey fn (count + 1), ⟨f, false⟩)] := by
    rw [hcnt, hg2]
    simp
  have hne : deprecatedKey fn count ≠ deprecatedKey fn (count + 1) := by
    intro he
    have := deprecatedKey_count_inj he
    omega
  have hfresh1 : deprecatedKey fn count ∉ keysOf (getSubscribers reg e) :=
    deprecatedKey_not_mem _ _ _ hinv
  have hfresh2 : deprecatedKey fn (count + 1) ∉
      keysOf (getSubscribers reg e ++ [(deprecatedKey fn count, ⟨f, false⟩)]) := by
    have := deprecatedKey_not_mem _ _ fn (depInv_extend _ _ fn ⟨f, false⟩ hinv)
    exact this
  have hnd2 : (keysOf (getSubscribers (onEvent (onEvent reg count e f fn).1
      (onEvent reg count e f fn).2 e f fn).1 e)).Nodup := by
    rw [hg2']
    rw [show getSubscribers reg e ++
        [(deprecatedKey fn count, (⟨f, false⟩ : Subscription)),
         (deprecatedKey fn (count + 1), ⟨f, false⟩)] =
      (getSubscribers reg e ++ [(deprecatedKey fn count, ⟨f, false⟩)]) ++
        [(deprecatedKey fn (count + 1), ⟨f, false⟩)] from by simp]
    rw [keysOf_append]
    refine List.nodup_append.mpr ⟨?_, List.nodup_singleton _, ?_⟩
    · rw [keysOf_append]
      refine List.nodup_append.mpr ⟨hnd, List.nodup_singleton _, ?_⟩
      intro a ha hb
      simp only [keysOf, List.map_cons, List.map_nil, List.mem_singleton] at hb
      exact hfresh1 (hb ▸ ha)
    · intro a ha hb
      simp only [keysOf, List.map_cons, List.map_nil, List.mem_singleton] at hb
      exact hfresh2 (hb ▸ ha)
  have hlen2 : (getSubscribers (onEvent (onEvent reg count e f fn).1
      (onEvent reg count e f fn).2 e f fn).1 e).length ≤ fuel := by
    rw [hg2']
    rw [List.length_append]
    simp only [List.length_cons, List.length_nil]
    omega
  refine ⟨hcnt, hne, hg2', ?_⟩
  rw [processEvent_pure H hH e _ fuel hnd2 hlen2, hg2']

theorem onEvent_appends_fresh_entries_witness :
    (onEvent [] 0 "connected" 7 "cb").2 = 0 + 1 ∧
    deprecatedKey "cb" 0 ≠ deprecatedKey "cb" (0 + 1) ∧
    getSubscribers (onEvent (onEvent [] 0 "connected" 7 "cb").1
        (onEvent [] 0 "connected" 7 "cb").2 "connected" 7 "cb").1 "connected" =
      getSubscribers [] "connected" ++
        [(deprecatedKey "cb" 0, ⟨7, false⟩), (deprecatedKey "cb" (0 + 1), ⟨7, false⟩)] ∧
    (processEvent (fun _ => ⟨false, []⟩) "connected"
        (onEvent (onEvent [] 0 "connected" 7 "cb").1
          (onEvent [] 0 "connected" 7 "cb").2 "connected" 7 "cb").1 2).2.1 =
      (getSubscribers [] "connected" ++
        [(deprecatedKey "cb" 0, (⟨7, false⟩ : Subscription)),
         (deprecatedKey "cb" (0 + 1), ⟨7, false⟩)]).map
        (fun p => (p.1, p.2.func)) :=
  onEvent_appends_fresh_entries [] 0 "connected" 7 "cb" (fun _ => ⟨false, []⟩) 2
    (fun _ => rfl)
    (fun k hk => absurd hk (List.not_mem_nil k))
    List.nodup_nil
    (by decide)

end Instance

namespace Lifecycle

theorem dispose_zero (names : Nat → String) (s : OState) (h : Nat) :
    dispose names 0 s h = (s, []) := by
  simp [dispose]

theorem dispose_of_disposed (names : Nat → String) (fuel : Nat) (s : OState) (h : Nat)
    (hd : (s.handles h).disposed = true) : dispose names fuel s h = (s, []) := by
  cases fuel with
  | zero => exact dispose_zero names s h
  | succ fuel => simp [dispose, hd]

theorem dispose_live_nocb (names : Nat → String) (fuel : Nat) (s : OState) (h : Nat)
    (hd : (s.handles h).disposed = false) (hcb : (s.handles h).hasCallback = false) :
    dispose names (fuel + 1) s h =
      ({ s with
          handles := fun g => if g = h then ⟨true, (s.handles g).hasCallback⟩ else s.handles g },
       [Action.disposeH h]) := by
  rw [dispose]
  simp [hd, hcb]

theorem disconnectedCallback_disposed_current (names : Nat → String) (f : Nat)
    (s1 : OState) (h : Nat)
    (hc : s1.current = some h) (hdd : (s1.handles h).disposed = true) :
    disconnectedCallback names (f + 2) s1 =
      ({ s1 with current := none, storageName := "" },
       [Action.setName "", Action.fireEv "disconnected"]) := by
  rw [show f + 2 = (f + 1) + 1 from rfl, disconnectedCallback, setConnection]
  simp only [hc]
  rw [dispose_of_disposed names f s1 h hdd]
  simp

theorem dispose_current_cb (names : Nat → String) (f : Nat) (s : OState) (h : Nat)
    (hc : s.current = some h) (hd : (s.handles h).disposed = false)
    (hcb : (s.handles h).hasCallback = true) :
    dispose names (f + 3) s h =
      ({ s with
          handles := fun g => if g = h then ⟨true, (s.handles g).hasCallback⟩ else s.handles g,
          current := none,
          storageName := "" },
       [Action.disposeH h, Action.setName "", Action.fireEv "disconnected"]) := by
  rw [show f + 3 = (f + 2) + 1 from rfl, dispose]
  simp only [hd, Bool.false_eq_true, if_false, hcb, if_true]
  rw [disconnectedCallback_disposed_current names f
    ({ s with
        handles := fun g => if g = h then ⟨true, (s.handles g).hasCallback⟩ else s.handles g })
    h (by simpa using hc) (by simp)]

theorem setConnection_none_nocurrent (names : Nat → String) (f : Nat) (s : OState)
    (hc : s.current = none) :
    setConnection names (f + 1) s none =
      ({ s with current := none, storageName := "" }, [Action.setName ""]) := by
  rw [setConnection]
  simp [hc]

theorem setConnection_none_current (names : Nat → String) (f : Nat) (s : OState) (h : Nat)
    (hc : s.current = some h) (hd : (s.handles h).disposed = false)
    (hcb : (s.handles h).hasCallback = true) :
    setConnection names (f + 4) s none =
      ({ s with
          handles := fun g => if g = h then ⟨true, (s.handles g).hasCallback⟩ else s.handles g,
          current := none,
          storageName := "" },
       [Action.disposeH h, Action.setName "", Action.fireEv "disconnected",
        Action.setName ""]) := by
  rw [show f + 4 = (f + 3) + 1 from rfl, setConnection]
  simp only [hc]
  rw [dispose_current_cb names f s h hc hd hcb]
  rfl

theorem setConnection_some_nocurrent (names : Nat → String) (f : Nat) (s : OState) (c : Nat)
    (hc : s.current = none) :
    setConnection names (f + 1) s (some c) =
      ({ s with
          handles := fun g => if g = c then ⟨(s.handles g).disposed, true⟩ else s.handles g,
          current := some c,
          storageName := names c,
          lastConnection := some (names c) },
       [Action.install c, Action.setName (names c), Action.setLast (names c),
        Action.fireEv "connected"]) := by
  rw [setConnection]
  simp [hc]

/-- Installing a new current handle: trace suffix and final-state facts, for
any well-formed starting state. -/
theorem setConnection_some_spec (names : Nat → String) (f : Nat) (s : OState) (c : Nat)
    (hwf : WF s) :
    ∃ t0 : List Action,
      (setConnection names (f + 4) s (some c)).2 =
        t0 ++ [Action.install c, Action.setName (names c), Action.setLast (names c),
               Action.fireEv "connected"] ∧
      t0.count (Action.fireEv "connected") = 0 ∧
      (∀ old, s.current = some old → Action.disposeH old ∈ t0) ∧
      (setConnection names (f + 4) s (some c)).1.current = some c ∧
      (setConnection names (f + 4) s (some c)).1.storageName = names c ∧
      (setConnection names (f + 4) s (some c)).1.lastConnection = some (names c) := by
  cases hcur : s.current with
  | none =>
    rw [show f + 4 = (f + 3) + 1 from rfl, setConnection_some_nocurrent names (f + 3) s c hcur]
    refine ⟨[], ?_, ?_, ?_, ?_, ?_, ?_⟩ <;>
      first
      | rfl
      | trivial
      | exact fun old hold => Option.noConfusion hold
  | some h =>
    rcases hwf h hcur with ⟨hd, hcb⟩
    rw [show f + 4 = (f + 3) + 1 from rfl, setConnection]
    simp only [hcur]
    rw [dispose_current_cb names f s h hcur hd hcb]
    refine ⟨[Action.disposeH h, Action.setName "", Action.fireEv "disconnected"],
      ?_, ?_, ?_, ?_, ?_, ?_⟩ <;>
      first
      | rfl
      | trivial
      | exact fun old hold => by
          injection hold with hold
          rw [hold]
          simp

/-- `Instance.disconnect` from a well-formed state: clears the current slot and
the storage pointer, preserves well-formedness, leaves every non-current handle
untouched, fires no `connected` event, and disposes the old current handle. -/
theorem disconnect_spec (names : Nat → String) (f : Nat) (s : OState) (hwf : WF s) :
    (disconnect names (f + 4) s).1.current = none ∧
    (disconnect names (f + 4) s).1.storageName = "" ∧
    WF (disconnect names (f + 4) s).1 ∧
    (∀ g, s.current ≠ some g → (disconnect names (f + 4) s).1.handles g = s.handles g) ∧
    (disconnect names (f + 4) s).2.count (Action.fireEv "connected") = 0 ∧
    (∀ old, s.current = some old → Action.disposeH old ∈ (disconnect names (f + 4) s).2) := by
  unfold disconnect
  cases hcur : s.current with
  | none =>
    rw [show f + 4 = (f + 3) + 1 from rfl, setConnection_none_nocurrent names (f + 3) s hcur]
    refine ⟨rfl, rfl, ?_, fun g _ => rfl, by rfl, ?_⟩
    · intro g hg
      cases hg
    · intro old hold
      exact Option.noConfusion hold
  | some h =>
    rcases hwf h hcur with ⟨hd, hcb⟩
    rw [setConnection_none_current names f s h hcur hd hcb]
    refine ⟨rfl, rfl, ?_, ?_, by rfl, ?_⟩
    · intro g hg
      cases hg
    · intro g hg
      have hgh : g ≠ h := by
        intro he
        exact hg (by rw [he])
      simp [hgh]
    · intro old hold
      injection hold with hold
      rw [hold]
      simp

theorem connectLoop_nil (names : Nat → String) (fuel : Nat) (s : OState) (c : Nat)
    (recon : Bool) (answers : List Bool) :
    connectLoop names fuel s c recon [] answers = (s, [], ⟨false⟩) := by
  rw [connectLoop]

theorem connectLoop_cons (names : Nat → String) (fuel : Nat) (s : OState) (c : Nat)
    (recon : Bool) (o : AttemptOutcome) (rest : List AttemptOutcome)
    (answers : List Bool) :
    connectLoop names fuel s c recon (o :: rest) answers =
      (if (outcomeResult o).success then
        ((setConnection names fuel s (some c)).1,
         (setConnection names fuel s (some c)).2, outcomeResult o)
      else if recon && answers.headD false then
        ((connectLoop names fuel (disconnect names fuel s).1 c true rest answers.tail).1,
         (disconnect names fuel s).2 ++
           (connectLoop names fuel (disconnect names fuel s).1 c true rest
             answers.tail).2.1,
         (connectLoop names fuel (disconnect names fuel s).1 c true rest
           answers.tail).2.2)
      else
        ((disconnect names fuel s).1, (disconnect names fuel s).2, outcomeResult o)) := by
  rw [connectLoop]

theorem freshHandle_disconnect (names : Nat → String) (f : Nat) (s : OState) (c : Nat)
    (hwf : WF s) (hfr : FreshHandle s c) :
    FreshHandle (disconnect names (f + 4) s).1 c := by
  rcases hfr with ⟨hd, hcb, hcur⟩
  rcases disconnect_spec names f s hwf with ⟨hc0, _, _, hhu, _, _⟩
  have hh := hhu c hcur
  refine ⟨?_, ?_, ?_⟩
  · rw [hh]
    exact hd
  · rw [hh]
    exact hcb
  · rw [hc0]
    simp

/-- A successful run of the retry loop: the trace ends with the install block,
no earlier `connected` event fired, the previous current handle was disposed
earlier in the trace, and the final state records the new handle as current
with its name persisted. -/
theorem connectLoop_success_spec (names : Nat → String) (f : Nat) (c : Nat) :
    ∀ (attempts : List AttemptOutcome) (answers : List Bool) (s : OState) (recon : Bool),
      WF s → FreshHandle s c →
      (connectLoop names (f + 4) s c recon attempts answers).2.2.success = true →
      ∃ t0 : List Action,
        (connectLoop names (f + 4) s c recon attempts answers).2.1 =
          t0 ++ [Action.install c, Action.setName (names c), Action.setLast (names c),
                 Action.fireEv "connected"] ∧
        t0.count (Action.fireEv "connected") = 0 ∧
        (∀ old, s.current = some old → Action.disposeH old ∈ t0) ∧
        (connectLoop names (f + 4) s c recon attempts answers).1.current = some c ∧
        (connectLoop names (f + 4) s c recon attempts answers).1.storageName = names c ∧
        (connectLoop names (f + 4) s c recon attempts answers).1.lastConnection =
          some (names c) := by
  intro attempts
  induction attempts with
  | nil =>
    intro answers s recon hwf hfr hsucc
    rw [connectLoop_nil] at hsucc
    cases hsucc
  | cons o rest ih =>
    intro answers s recon hwf hfr hsucc
    rw [connectLoop_cons] at hsucc ⊢
    by_cases hro : (outcomeResult o).success = true
    · rw [if_pos hro] at hsucc ⊢
      rcases setConnection_some_spec names f s c hwf with ⟨t0, htr, hcnt, hdis, hcu, hst, hlc⟩
      exact ⟨t0, htr, hcnt, hdis, hcu, hst, hlc⟩
    · rw [if_neg hro] at hsucc ⊢
      by_cases hrt : (recon && answers.headD false) = true
      · rw [if_pos hrt] at hsucc ⊢
        rcases disconnect_spec names f s hwf with ⟨hc0, hsn, hwf2, hhu, hcnt0, hdisp⟩
        have hfr2 := freshHandle_disconnect names f s c hwf hfr
        rcases ih answers.tail (disconnect names (f + 4) s).1 true hwf2 hfr2 hsucc with
          ⟨t0, htr, hcnt, hdis, hcu, hst, hlc⟩
        refine ⟨(disconnect names (f + 4) s).2 ++ t0, ?_, ?_, ?_, hcu, hst, hlc⟩
        · show (disconnect names (f + 4) s).2 ++ _ = _
          rw [htr]
          simp [List.append_assoc]
        · rw [List.count_append, hcnt0, hcnt]
        · intro old hold
          exact List.mem_append_left _ (hdisp old hold)
      · rw [if_neg hrt] at hsucc
        exact absurd hsucc hro

/-- A failed run of the retry loop: no `connected` event fired, the fresh
handle was never touched, and (except for the degenerate empty-oracle case)
the final state has no current handle and stays well-formed. -/
theorem connectLoop_fail_spec (names : Nat → String) (f : Nat) (c : Nat) :
    ∀ (attempts : List AttemptOutcome) (answers : List Bool) (s : OState) (recon : Bool),
      WF s → FreshHandle s c →
      (connectLoop names (f + 4) s c recon attempts answers).2.2.success = false →
      ((connectLoop names (f + 4) s c recon attempts answers).2.1.count
          (Action.fireEv "connected") = 0) ∧
      (connectLoop names (f + 4) s c recon attempts answers).1.handles c = s.handles c ∧
      ((connectLoop names (f + 4) s c recon attempts answers).1.current = none ∧
        WF (connectLoop names (f + 4) s c recon attempts answers).1 ∨
       (attempts = [] ∧
        connectLoop names (f + 4) s c recon attempts answers = (s, [], ⟨false⟩))) := by
  intro attempts
  induction attempts with
  | nil =>
    intro answers s recon _ _ _
    rw [connectLoop_nil]
    exact ⟨rfl, rfl, Or.inr ⟨rfl, connectLoop_nil names (f + 4) s c recon answers⟩⟩
  | cons o rest ih =>
    intro answers s recon hwf hfr hfail
    rw [connectLoop_cons] at hfail ⊢
    by_cases hro : (outcomeResult o).success = true
    · rw [if_pos hro] at hfail
      rw [show ((setConnection names (f + 4) s (some c)).1,
        (setConnection names (f + 4) s (some c)).2, outcomeResult o).2.2 =
          outcomeResult o from rfl] at hfail
      rw [hfail] at hro
      cases hro
    · rw [if_neg hro] at hfail ⊢
      rcases disconnect_spec names f s hwf with ⟨hc0, hsn, hwf2, hhu, hcnt0, hdisp⟩
      have hhc := hhu c hfr.2.2
      by_cases hrt : (recon && answers.headD false) = true
      · rw [if_pos hrt] at hfail ⊢
        have hfr2 := freshHandle_disconnect names f s c hwf hfr
        rcases ih answers.tail (disconnect names (f + 4) s).1 true hwf2 hfr2 hfail with
          ⟨hcnt, hhc2, hdisj⟩
        refine ⟨?_, ?_, ?_⟩
        · show ((disconnect names (f + 4) s).2 ++ _).count (Action.fireEv "connected") = 0
          rw [List.count_append, hcnt0, hcnt]
        · show (connectLoop names (f + 4) (disconnect names (f + 4) s).1 c true rest
            answers.tail).1.handles c = s.handles c
          rw [hhc2, hhc]
        · rcases hdisj with ⟨hc2, hwf3⟩ | ⟨hrest, heq⟩
          · exact Or.inl ⟨hc2, hwf3⟩
          · refine Or.inl ⟨?_, ?_⟩
            · show (connectLoop names (f + 4) (disconnect names (f + 4) s).1 c true rest
                answers.tail).1.current = none
              rw [heq]
              exact hc0
            · show WF (connectLoop names (f + 4) (disconnect names (f + 4) s).1 c true rest
                answers.tail).1
              rw [heq]
              exact hwf2
      · rw [if_neg hrt]
        exact ⟨hcnt0, hhc, Or.inl ⟨hc0, hwf2⟩⟩

/-- C2: for every successful connect attempt, exactly one `connected` event
fires during the whole `connect` run; any previous current handle is disposed
before the new handle is installed as current (its `disposeH` lies in the
trace prefix `t0` that precedes the `install`); and the global storage's
last-connection record is written with the new handle's connection name
immediately before the `connected` event fires — the trace ends
`install, setName, setLast, fireEv "connected"` — so persistence
happens-before the event, and the final state's last-connection equals the
new handle's name. -/
theorem connect_success_spec (names : Nat → String) (f : Nat) (s : OState) (c : Nat)
    (recon : Bool) (attempts : List AttemptOutcome) (answers : List Bool)
    (hwf : WF s) (hfr : FreshHandle s c)
    (hsucc : (connect names (f + 4) s c recon attempts answers).2.2.success = true) :
    ∃ t0 : List Action,
      (connect names (f + 4) s c recon attempts answers).2.1 =
        t0 ++ [Action.install c, Action.setName (names c), Action.setLast (names c),
               Action.fireEv "connected"] ∧
      ((connect names (f + 4) s c recon attempts answers).2.1).count
        (Action.fireEv "connected") = 1 ∧
      (∀ old, s.current = some old → Action.disposeH old ∈ t0) ∧
      (connect names (f + 4) s c recon attempts answers).1.current = some c ∧
      (connect names (f + 4) s c recon attempts answers).1.storageName = names c ∧
      (connect names (f + 4) s c recon attempts answers).1.lastConnection =
        some (names c) := by
  have hloop : (connectLoop names (f + 4) s c recon attempts answers).2.2.success = true := by
    unfold connect at hsucc
    by_cases hb : (connectLoop names (f + 4) s c recon attempts answers).2.2.success = false
    · rw [if_pos hb] at hsucc
      exact hsucc
    · rw [if_neg hb] at hsucc
      exact hsucc
  have hconn : connect names (f + 4) s c recon attempts answers =
      connectLoop names (f + 4) s c recon attempts answers := by
    unfold connect
    rw [if_neg (by rw [hloop]; simp)]
  rw [hconn]
  rcases connectLoop_success_spec names f c attempts answers s recon hwf hfr hloop with
    ⟨t0, htr, hcnt, hdis, hcu, hst, hlc⟩
  refine ⟨t0, htr, ?_, hdis, hcu, hst, hlc⟩
  rw [htr, List.count_append, hcnt]
  rfl

theorem connect_success_spec_witness :
    ∃ t0 : List Action,
      (connect (fun _ => "SYS") (0 + 4) ⟨none, fun _ => ⟨false, false⟩, "", none⟩ 0 false
        [AttemptOutcome.ok ⟨true⟩] []).2.1 =
        t0 ++ [Action.install 0, Action.setName ((fun _ : Nat => "SYS") 0),
               Action.setLast ((fun _ : Nat => "SYS") 0), Action.fireEv "connected"] ∧
      ((connect (fun _ => "SYS") (0 + 4) ⟨none, fun _ => ⟨false, false⟩, "", none⟩ 0 false
        [AttemptOutcome.ok ⟨true⟩] []).2.1).count (Action.fireEv "connected") = 1 ∧
      (∀ old, (⟨none, fun _ => ⟨false, false⟩, "", none⟩ : OState).current = some old →
        Action.disposeH old ∈ t0) ∧
      (connect (fun _ => "SYS") (0 + 4) ⟨none, fun _ => ⟨false, false⟩, "", none⟩ 0 false
        [AttemptOutcome.ok ⟨true⟩] []).1.current = some 0 ∧
      (connect (fun _ => "SYS") (0 + 4) ⟨none, fun _ => ⟨false, false⟩, "", none⟩ 0 false
        [AttemptOutcome.ok ⟨true⟩] []).1.storageName = (fun _ : Nat => "SYS") 0 ∧
      (connect (fun _ => "SYS") (0 + 4) ⟨none, fun _ => ⟨false, false⟩, "", none⟩ 0 false
        [AttemptOutcome.ok ⟨true⟩] []).1.lastConnection = some ((fun _ : Nat => "SYS") 0) :=
  connect_success_spec (fun _ => "SYS") 0 ⟨none, fun _ => ⟨false, false⟩, "", none⟩ 0 false
    [AttemptOutcome.ok ⟨true⟩] []
    (fun h hh => Option.noConfusion hh)
    ⟨rfl, rfl, fun hh => Option.noConfusion hh⟩
    rfl

/-- C3: for every connect attempt whose overall result has `success = false`
(so no user-confirmed retry is pending — the retry loop has exited), the
handle created for the attempt is disposed before the caller observes the
result (the trace ends with its `disposeH`), no `connected` event fires
anywhere in the run, and the orchestrator holds no current handle afterwards;
a fault thrown during the attempt is caught (`src/Instance.ts:105-108`,
embedded as `outcomeResult` mapping `threw` to `success = false`) and becomes
this result instead of propagating to the caller. -/
theorem connect_failure_spec (names : Nat → String) (f : Nat) (s : OState) (c : Nat)
    (recon : Bool) (attempts : List AttemptOutcome) (answers : List Bool)
    (hwf : WF s) (hfr : FreshHandle s c) (hne : attempts ≠ [])
    (hfail : (connect names (f + 4) s c recon attempts answers).2.2.success = false) :
    ∃ t0 : List Action,
      (connect names (f + 4) s c recon attempts answers).2.1 =
        t0 ++ [Action.disposeH c] ∧
      ((connect names (f + 4) s c recon attempts answers).2.1).count
        (Action.fireEv "connected") = 0 ∧
      (connect names (f + 4) s c recon attempts answers).1.current = none := by
  have hloop : (connectLoop names (f + 4) s c recon attempts answers).2.2.success = false := by
    unfold connect at hfail
    by_cases hb : (connectLoop names (f + 4) s c recon attempts answers).2.2.success = false
    · exact hb
    · rw [if_neg hb] at hfail
      exact hfail
  rcases connectLoop_fail_spec names f c attempts answers s recon hwf hfr hloop with
    ⟨hcnt, hhc, hdisj⟩
  rcases hdisj with ⟨hc0, _⟩ | ⟨hrest, _⟩
  · have hconn : connect names (f + 4) s c recon attempts answers =
        ((dispose names (f + 4) (connectLoop names (f + 4) s c recon attempts answers).1 c).1,
         (connectLoop names (f + 4) s c recon attempts answers).2.1 ++
           (dispose names (f + 4) (connectLoop names (f + 4) s c recon attempts answers).1 c).2,
         (connectLoop names (f + 4) s c recon attempts answers).2.2) := by
      unfold connect
      rw [if_pos hloop]
    have hdl := dispose_live_nocb names (f + 3)
      (connectLoop names (f + 4) s c recon attempts answers).1 c
      (by rw [hhc]; exact hfr.1) (by rw [hhc]; exact hfr.2.1)
    rw [hconn, show f + 4 = (f + 3) + 1 from rfl, hdl]
    refine ⟨(connectLoop names ((f + 3) + 1) s c recon attempts answers).2.1, rfl, ?_, ?_⟩
    · rw [List.count_append]
      rw [show (f + 3) + 1 = f + 4 from rfl, hcnt]
      rfl
    · show ({ (connectLoop names ((f + 3) + 1) s c recon attempts answers).1 with
        handles := _ } : OState).current = none
      rw [show (f + 3) + 1 = f + 4 from rfl]
      exact hc0
  · exact absurd hrest hne

theorem connect_failure_spec_witness :
    ∃ t0 : List Action,
      (connect (fun _ => "SYS") (0 + 4) ⟨none, fun _ => ⟨false, false⟩, "", none⟩ 0 false
        [AttemptOutcome.threw "boom"] []).2.1 = t0 ++ [Action.disposeH 0] ∧
      ((connect (fun _ => "SYS") (0 + 4) ⟨none, fun _ => ⟨false, false⟩, "", none⟩ 0 false
        [AttemptOutcome.threw "boom"] []).2.1).count (Action.fireEv "connected") = 0 ∧
      (connect (fun _ => "SYS") (0 + 4) ⟨none, fun _ => ⟨false, false⟩, "", none⟩ 0 false
        [AttemptOutcome.threw "boom"] []).1.current = none :=
  connect_failure_spec (fun _ => "SYS") 0 ⟨none, fun _ => ⟨false, false⟩, "", none⟩ 0 false
    [AttemptOutcome.threw "boom"] []
    (fun h hh => Option.noConfusion hh)
    ⟨rfl, rfl, fun hh => Option.noConfusion hh⟩
    (by simp)
    rfl

end Lifecycle

namespace Instantiate

theorem docsPass_false (docs : List TextDoc) : (docsPass docs false).1 = false := by
  induction docs with
  | nil => rfl
  | cons d rest ih =>
    rw [docsPass]
    by_cases h1 : (!d.isClosed && (d.scheme == "member" || d.scheme == "streamfile")) = true
    · rw [if_pos h1]
      by_cases h2 : d.isDirty = true
      · rw [if_pos h2]
        rw [if_neg (by simp)]
        exact ih
      · rw [if_neg h2]
        exact ih
    · rw [if_neg h1]
      exact ih

theorem blocking_cond (d : TextDoc) (hblk : Blocking d) :
    (!d.isClosed && (d.scheme == "member" || d.scheme == "streamfile")) = true := by
  rcases hblk with ⟨hcl, hsch, _⟩
  rcases hsch with hs | hs <;> simp [hcl, hs]

theorem docsPass_clean (docs : List TextDoc)
    (hclean : ∀ d ∈ docs, ¬ Blocking d) : ∀ dd, (docsPass docs dd).1 = dd := by
  induction docs with
  | nil => intro dd; rfl
  | cons d rest ih =>
    intro dd
    have hrest : ∀ d2 ∈ rest, ¬ Blocking d2 :=
      fun d2 h2 => hclean d2 (List.mem_cons_of_mem d h2)
    rw [docsPass]
    by_cases h1 : (!d.isClosed && (d.scheme == "member" || d.scheme == "streamfile")) = true
    · rw [if_pos h1]
      have hnd : ¬ d.isDirty = true := by
        intro hdirty
        apply hclean d (List.mem_cons_self d rest)
        have h1b := h1
        rw [Bool.and_eq_true] at h1b
        rcases h1b with ⟨hco, hsc⟩
        refine ⟨by simpa using hco, ?_, hdirty⟩
        rw [Bool.or_eq_true] at hsc
        rcases hsc with hs | hs
        · exact Or.inl (by simpa using hs)
        · exact Or.inr (by simpa using hs)
      rw [if_neg hnd]
      exact ih hrest dd
    · rw [if_neg h1]
      exact ih hrest dd

theorem docsPass_blocked (docs : List TextDoc) (d0 : TextDoc)
    (hmem : d0 ∈ docs) (hblk : Blocking d0) :
    (docsPass docs true).1 = false ∧
    UAction.showErrorMessage "Cannot disconnect while files have not been saved." ∈
      (docsPass docs true).2 := by
  induction docs with
  | nil => cases hmem
  | cons d rest ih =>
    by_cases h1 : (!d.isClosed && (d.scheme == "member" || d.scheme == "streamfile")) = true
    · by_cases h2 : d.isDirty = true
      · rw [docsPass, if_pos h1, if_pos h2, if_pos rfl]
        exact ⟨docsPass_false rest, List.mem_cons_self _ _⟩
      · have hm : d0 ∈ rest := by
          rcases List.mem_cons.mp hmem with he | hm
          · exact absurd (he ▸ hblk.2.2) h2
          · exact hm
        rw [docsPass, if_pos h1, if_neg h2]
        rcases ih hm with ⟨hf, hmsg⟩
        exact ⟨hf, List.mem_cons_of_mem _ (List.mem_cons_of_mem _ hmsg)⟩
    · have hm : d0 ∈ rest := by
        rcases List.mem_cons.mp hmem with he | hm
        · exact absurd (he ▸ blocking_cond d0 hblk) h1
        · exact hm
      rw [docsPass, if_neg h1]
      exact ih hm

theorem docsPass_no_end (docs : List TextDoc) :
    ∀ (dd : Bool) (h : Nat), UAction.endConn h ∉ (docsPass docs dd).2 := by
  induction docs with
  | nil => intro dd h hmem; cases hmem
  | cons d rest ih =>
    intro dd h
    rw [docsPass]
    by_cases h1 : (!d.isClosed && (d.scheme == "member" || d.scheme == "streamfile")) = true
    · rw [if_pos h1]
      by_cases h2 : d.isDirty = true
      · rw [if_pos h2]
        by_cases h3 : dd = true
        · rw [if_pos h3]
          intro hmem
          rcases List.mem_cons.mp hmem with he | hmem2
          · cases he
          · rcases List.mem_cons.mp hmem2 with he | hmem3
            · cases he
            · exact ih false h hmem3
        · rw [if_neg h3]
          exact ih dd h
      · rw [if_neg h2]
        intro hmem
        rcases List.mem_cons.mp hmem with he | hmem2
        · cases he
        · rcases List.mem_cons.mp hmem2 with he | hmem3
          · cases he
          · exact ih dd h hmem3
    · rw [if_neg h1]
      exact ih dd h

/-- C5: a disconnect request issued while at least one open connection-backed
document (scheme `member` or `streamfile`) has unsaved changes does not
proceed: `doDisconnect` comes back false, the connection slot is left
untouched — the handle's `end()` is never invoked, so it is not disposed and
no `disconnected` event can fire — and a blocking error notice is surfaced to
the user. -/
theorem disconnect_blocked_spec (docs : List TextDoc) (conn : Option Nat)
    (d0 : TextDoc) (hmem : d0 ∈ docs) (hblk : Blocking d0) :
    (disconnect docs conn).1 = false ∧
    (disconnect docs conn).2.1 = conn ∧
    (∀ h, UAction.endConn h ∉ (disconnect docs conn).2.2) ∧
    UAction.showErrorMessage "Cannot disconnect while files have not been saved." ∈
      (disconnect docs conn).2.2 := by
  rcases docsPass_blocked docs d0 hmem hblk with ⟨hf, hmsg⟩
  unfold disconnect
  rw [if_neg (by rw [hf]; simp)]
  exact ⟨rfl, rfl, fun h => docsPass_no_end docs true h, hmsg⟩

theorem disconnect_blocked_spec_witness :
    (disconnect [⟨"member", false, true⟩] (some 0)).1 = false ∧
    (disconnect [⟨"member", false, true⟩] (some 0)).2.1 = some 0 ∧
    (∀ h, UAction.endConn h ∉ (disconnect [⟨"member", false, true⟩] (some 0)).2.2) ∧
    UAction.showErrorMessage "Cannot disconnect while files have not been saved." ∈
      (disconnect [⟨"member", false, true⟩] (some 0)).2.2 :=
  disconnect_blocked_spec [⟨"member", false, true⟩] (some 0) ⟨"member", false, true⟩
    (List.mem_singleton.mpr rfl) ⟨rfl, Or.inl rfl, rfl⟩

end Instantiate

namespace Lifecycle

/-- C4: for a disconnect request issued while no unsaved connection-backed
resources are open, the document guard lets teardown proceed
(`doDisconnect` stays true), and the orchestrator's disconnect from a
Connected state ends Idle (no current handle), fires exactly one
`disconnected` event — produced by the disposed handle's disconnected
callback, the reentrant `setConnection` being cut off by dispose idempotence —
and clears the current-connection storage pointer. -/
theorem disconnect_clean_spec (names : Nat → String) (f : Nat) (s : OState) (h : Nat)
    (docs : List Instantiate.TextDoc)
    (hclean : ∀ d ∈ docs, ¬ Instantiate.Blocking d)
    (hc : s.current = some h) (hwf : WF s) :
    (Instantiate.docsPass docs true).1 = true ∧
    (disconnect names (f + 4) s).1.current = none ∧
    (disconnect names (f + 4) s).1.storageName = "" ∧
    (disconnect names (f + 4) s).2.count (Action.fireEv "disconnected") = 1 := by
  rcases hwf h hc with ⟨hd, hcb⟩
  refine ⟨Instantiate.docsPass_clean docs hclean true, ?_, ?_, ?_⟩
  · unfold disconnect
    rw [setConnection_none_current names f s h hc hd hcb]
  · unfold disconnect
    rw [setConnection_none_current names f s h hc hd hcb]
  · unfold disconnect
    rw [setConnection_none_current names f s h hc hd hcb]
    rfl

theorem disconnect_clean_spec_witness :
    (Instantiate.docsPass [⟨"member", false, false⟩] true).1 = true ∧
    (disconnect (fun _ => "SYS") (0 + 4)
      ⟨some 3, fun _ => ⟨false, true⟩, "SYS", some "SYS"⟩).1.current = none ∧
    (disconnect (fun _ => "SYS") (0 + 4)
      ⟨some 3, fun _ => ⟨false, true⟩, "SYS", some "SYS"⟩).1.storageName = "" ∧
    (disconnect (fun _ => "SYS") (0 + 4)
      ⟨some 3, fun _ => ⟨false, true⟩, "SYS", some "SYS"⟩).2.count
      (Action.fireEv "disconnected") = 1 :=
  disconnect_clean_spec (fun _ => "SYS") 0 ⟨some 3, fun _ => ⟨false, true⟩, "SYS", some "SYS"⟩ 3
    [⟨"member", false, false⟩]
    (fun d hd => by
      rcases List.mem_singleton.mp hd with rfl
      rintro ⟨_, _, hdirty⟩
      cases hdirty)
    rfl
    (fun g hg => by
      injection hg with hg
      exact ⟨rfl, rfl⟩)

end Lifecycle
